import Mathlib

/-!
Shallow embedding of the finite-automaton library (`src/automata.rs`,
`src/passive.rs`): deterministic and nondeterministic finite automata over
`String` states and `Char` symbols, epsilon-closure computation, acceptance,
subset-construction determinization, and the prefix-tree-acceptor builder.

Modelling conventions:
* A Rust `HashMap` is modelled as an association list together with the
  key-based lookup `hmGet`; a `HashSet` used purely as a set is a `Finset`.
* Where Rust code *iterates* over a `HashSet` (an operation whose order is
  unspecified), the embedding fixes one concrete enumeration: either the
  canonical sorted enumeration `enumOf`, or (for `HashSet` values stored in a
  map) the list that models the stored set.  All theorems proved below are
  statements whose truth does not depend on the enumeration order chosen.
* State strings produced with Rust's `format!("q{}", i)` are modelled as
  `"q" ++ toString i`.
-/

/-- Lookup in an association list modelling `HashMap::get`: the value stored at
the first occurrence of the key, if any. -/
def hmGet {α β : Type} [DecidableEq α] : List (α × β) → α → Option β
  | [], _ => none
  | e :: rest, k => if e.1 = k then some e.2 else hmGet rest k

/-- Canonical enumeration of a `Finset String`, modelling iteration over a
`HashSet<String>` (whose real order is unspecified). -/
def enumOf (S : Finset String) : List String := S.sort (· ≤ ·)

theorem enumOf_mem (S : Finset String) (x : String) : x ∈ enumOf S ↔ x ∈ S :=
  Finset.mem_sort _

theorem enumOf_nodup (S : Finset String) : (enumOf S).Nodup := S.sort_nodup _

/-- `DeterministicFiniteAutomaton` from `src/automata.rs`. -/
structure DeterministicFiniteAutomaton where
  states : Finset String
  alphabet : Finset Char
  transition_function : List ((String × Char) × String)
  start_state : String
  accept_states : Finset String

/-- `DFA::transition_dfa`: `self.transition_function.get(&(state, symbol)).cloned()`. -/
def DeterministicFiniteAutomaton.transition_dfa (d : DeterministicFiniteAutomaton)
    (state : String) (symbol : Char) : Option String :=
  hmGet d.transition_function (state, symbol)

/-- `FiniteAutomaton::is_accepting` for the DFA: membership in `accept_states`. -/
def DeterministicFiniteAutomaton.is_accepting (d : DeterministicFiniteAutomaton)
    (state : String) : Bool :=
  state ∈ d.accept_states

/-- The loop body of `DeterministicFiniteAutomaton::accepts`, with the mutable
`current_state` made an explicit argument: advance on each symbol, returning
`false` as soon as a transition is undefined. -/
def DeterministicFiniteAutomaton.acceptsFrom (d : DeterministicFiniteAutomaton) :
    String → List Char → Bool
  | current, [] => d.is_accepting current
  | current, symbol :: rest =>
      match d.transition_dfa current symbol with
      | some next => d.acceptsFrom next rest
      | none => false

/-- `DeterministicFiniteAutomaton::accepts`. -/
def DeterministicFiniteAutomaton.accepts (d : DeterministicFiniteAutomaton)
    (input : List Char) : Bool :=
  d.acceptsFrom d.start_state input

/-- `NondeterministicFiniteAutomaton` from `src/automata.rs`.  A transition
value (`HashSet<String>` in Rust) is modelled as the list of its elements in
iteration order. -/
structure NondeterministicFiniteAutomaton where
  states : Finset String
  alphabet : Finset Char
  transition_function : List ((String × Option Char) × List String)
  start_state : String
  accept_states : Finset String

/-- `NondeterministicFiniteAutomaton::transition_nfa`: lookup defaulting to the
empty set (`unwrap_or_else(HashSet::new)`). -/
def NondeterministicFiniteAutomaton.transition_nfa (n : NondeterministicFiniteAutomaton)
    (state : String) (symbol : Option Char) : List String :=
  (hmGet n.transition_function (state, symbol)).getD []

/-- `FiniteAutomaton::is_accepting` for the NFA. -/
def NondeterministicFiniteAutomaton.is_accepting (n : NondeterministicFiniteAutomaton)
    (state : String) : Bool :=
  state ∈ n.accept_states

/-- All states occurring in some transition target set of the NFA; a finite
universe bounding every state the closure loops can ever add. -/
def NondeterministicFiniteAutomaton.allTargets (n : NondeterministicFiniteAutomaton) :
    Finset String :=
  n.transition_function.foldr (fun e acc => e.2.toFinset ∪ acc) ∅

theorem hmGet_mem {α β : Type} [DecidableEq α] (m : List (α × β)) (k : α) (v : β)
    (h : hmGet m k = some v) : (k, v) ∈ m := by
  induction m with
  | nil => simp [hmGet] at h
  | cons e rest ih =>
      simp only [hmGet] at h
      by_cases hk : e.1 = k
      · rw [if_pos hk] at h
        have he : e = (k, v) := by
          obtain ⟨a, b⟩ := e
          simp only [Option.some.injEq] at h
          simp_all
        rw [he]
        exact List.mem_cons_self _ _
      · rw [if_neg hk] at h
        exact List.mem_cons_of_mem e (ih h)

theorem transition_nfa_subset_allTargets (n : NondeterministicFiniteAutomaton)
    (state : String) (symbol : Option Char) (t : String)
    (ht : t ∈ n.transition_nfa state symbol) : t ∈ n.allTargets := by
  unfold NondeterministicFiniteAutomaton.transition_nfa at ht
  rcases hg : hmGet n.transition_function (state, symbol) with _ | v
  · rw [hg] at ht
    simp at ht
  · rw [hg] at ht
    simp only [Option.getD_some] at ht
    have hmem := hmGet_mem _ _ _ hg
    unfold NondeterministicFiniteAutomaton.allTargets
    clear hg
    generalize n.transition_function = m at hmem ⊢
    induction m with
    | nil => simp at hmem
    | cons e rest ih =>
        simp only [List.foldr_cons, Finset.mem_union]
        rcases List.mem_cons.mp hmem with hmem | hmem
        · left
          rw [← hmem]
          simpa using ht
        · right
          exact ih hmem

/-- One pass of the inner `for next_state in next_states` loop shared by
`epsilon_closure` and `epsilon_closure_set`: for each successor in order, if it
is not yet in the closure, insert it and push it onto the worklist (a stack,
new items in front). -/
def pushFresh (closure : Finset String) (work : List String) :
    List String → Finset String × List String
  | [] => (closure, work)
  | t :: ts =>
      if t ∈ closure then pushFresh closure work ts
      else pushFresh (insert t closure) (t :: work) ts

/-- Queue variant of `pushFresh` (`push_back`, new items at the back), used by
`epsilon_closure_set`. -/
def pushFreshBack (closure : Finset String) (work : List String) :
    List String → Finset String × List String
  | [] => (closure, work)
  | t :: ts =>
      if t ∈ closure then pushFreshBack closure work ts
      else pushFreshBack (insert t closure) (work ++ [t]) ts

theorem pushFresh_fst (closure : Finset String) (work ts : List String) :
    (pushFresh closure work ts).1 = closure ∪ ts.toFinset := by
  induction ts generalizing closure work with
  | nil => simp [pushFresh]
  | cons t ts ih =>
      simp only [pushFresh, List.toFinset_cons]
      by_cases h : t ∈ closure
      · rw [if_pos h, ih]
        ext x
        simp only [Finset.mem_union, Finset.mem_insert, List.mem_toFinset]
        constructor
        · rintro (hx | hx)
          · exact Or.inl hx
          · exact Or.inr (Or.inr hx)
        · rintro (hx | hx | hx)
          · exact Or.inl hx
          · exact Or.inl (hx ▸ h)
          · exact Or.inr hx
      · rw [if_neg h, ih]
        ext x
        simp only [Finset.mem_union, Finset.mem_insert, List.mem_toFinset]
        tauto

theorem pushFreshBack_fst (closure : Finset String) (work ts : List String) :
    (pushFreshBack closure work ts).1 = closure ∪ ts.toFinset := by
  induction ts generalizing closure work with
  | nil => simp [pushFreshBack]
  | cons t ts ih =>
      simp only [pushFreshBack, List.toFinset_cons]
      by_cases h : t ∈ closure
      · rw [if_pos h, ih]
        ext x
        simp only [Finset.mem_union, Finset.mem_insert, List.mem_toFinset]
        constructor
        · rintro (hx | hx)
          · exact Or.inl hx
          · exact Or.inr (Or.inr hx)
        · rintro (hx | hx | hx)
          · exact Or.inl hx
          · exact Or.inl (hx ▸ h)
          · exact Or.inr hx
      · rw [if_neg h, ih]
        ext x
        simp only [Finset.mem_union, Finset.mem_insert, List.mem_toFinset]
        tauto

theorem pushFresh_measure (univ closure : Finset String) (work ts : List String)
    (hts : ∀ t ∈ ts, t ∈ univ) :
    (univ \ (pushFresh closure work ts).1).card + (pushFresh closure work ts).2.length
      = (univ \ closure).card + work.length := by
  induction ts generalizing closure work with
  | nil => simp [pushFresh]
  | cons t ts ih =>
      simp only [pushFresh]
      by_cases h : t ∈ closure
      · rw [if_pos h]
        exact ih closure work (fun x hx => hts x (List.mem_cons_of_mem t hx))
      · rw [if_neg h]
        rw [ih (insert t closure) (t :: work) (fun x hx => hts x (List.mem_cons_of_mem t hx))]
        have htu : t ∈ univ \ closure :=
          Finset.mem_sdiff.mpr ⟨hts t (List.mem_cons_self t ts), h⟩
        have hcard : (univ \ insert t closure).card = (univ \ closure).card - 1 := by
          rw [Finset.sdiff_insert]
          exact Finset.card_erase_of_mem htu
        have hpos : 0 < (univ \ closure).card := Finset.card_pos.mpr ⟨t, htu⟩
        simp only [hcard, List.length_cons]
        omega

theorem pushFreshBack_measure (univ closure : Finset String) (work ts : List String)
    (hts : ∀ t ∈ ts, t ∈ univ) :
    (univ \ (pushFreshBack closure work ts).1).card + (pushFreshBack closure work ts).2.length
      = (univ \ closure).card + work.length := by
  induction ts generalizing closure work with
  | nil => simp [pushFreshBack]
  | cons t ts ih =>
      simp only [pushFreshBack]
      by_cases h : t ∈ closure
      · rw [if_pos h]
        exact ih closure work (fun x hx => hts x (List.mem_cons_of_mem t hx))
      · rw [if_neg h]
        rw [ih (insert t closure) (work ++ [t]) (fun x hx => hts x (List.mem_cons_of_mem t hx))]
        have htu : t ∈ univ \ closure :=
          Finset.mem_sdiff.mpr ⟨hts t (List.mem_cons_self t ts), h⟩
        have hcard : (univ \ insert t closure).card = (univ \ closure).card - 1 := by
          rw [Finset.sdiff_insert]
          exact Finset.card_erase_of_mem htu
        have hpos : 0 < (univ \ closure).card := Finset.card_pos.mpr ⟨t, htu⟩
        simp only [hcard, List.length_append, List.length_cons, List.length_nil]
        omega

/-- The worklist loop of `NFA::epsilon_closure` (stack discipline: `Vec::pop` /
`Vec::push`): pop a state, look up its ε-successors, insert-and-push the fresh
ones. -/
def epsClosureLoop (n : NondeterministicFiniteAutomaton) :
    Finset String → List String → Finset String
  | closure, [] => closure
  | closure, s :: rest =>
      epsClosureLoop n (pushFresh closure rest (n.transition_nfa s none)).1
        (pushFresh closure rest (n.transition_nfa s none)).2
termination_by closure stack => (n.allTargets \ closure).card + stack.length
decreasing_by
  have h := pushFresh_measure n.allTargets closure rest (n.transition_nfa s none)
    (fun t ht => transition_nfa_subset_allTargets n s none t ht)
  simp only [List.length_cons]
  omega

/-- `NFA::epsilon_closure`: closure and stack both seeded with the start
state. -/
def NondeterministicFiniteAutomaton.epsilon_closure (n : NondeterministicFiniteAutomaton)
    (state : String) : Finset String :=
  epsClosureLoop n {state} [state]

/-- The worklist loop of `epsilon_closure_set` (queue discipline:
`VecDeque::pop_front` / `push_back`). -/
def epsClosureSetLoop (n : NondeterministicFiniteAutomaton) :
    Finset String → List String → Finset String
  | closure, [] => closure
  | closure, s :: rest =>
      epsClosureSetLoop n (pushFreshBack closure rest (n.transition_nfa s none)).1
        (pushFreshBack closure rest (n.transition_nfa s none)).2
termination_by closure queue => (n.allTargets \ closure).card + queue.length
decreasing_by
  have h := pushFreshBack_measure n.allTargets closure rest (n.transition_nfa s none)
    (fun t ht => transition_nfa_subset_allTargets n s none t ht)
  simp only [List.length_cons]
  omega

/-- `NondeterministicFiniteAutomaton::epsilon_closure_set`: the closure starts
as a copy of the given set and the queue is seeded with its elements. -/
def NondeterministicFiniteAutomaton.epsilon_closure_set (n : NondeterministicFiniteAutomaton)
    (states : Finset String) : Finset String :=
  epsClosureSetLoop n states (enumOf states)

/-- The body of the `for symbol in input.chars()` loop of `NFA::accepts`: the
new active set collects, for every active state and every state reachable from
it on the symbol, the epsilon closure of the latter. -/
def nfaStep (n : NondeterministicFiniteAutomaton) (current : Finset String) (symbol : Char) :
    Finset String :=
  current.biUnion fun s =>
    (n.transition_nfa s (some symbol)).toFinset.biUnion fun r => n.epsilon_closure r

/-- `NondeterministicFiniteAutomaton::accepts`. -/
def NondeterministicFiniteAutomaton.accepts (n : NondeterministicFiniteAutomaton)
    (input : List Char) : Bool :=
  decide (∃ s ∈ input.foldl (nfaStep n) (n.epsilon_closure n.start_state), n.is_accepting s)

/-- `NondeterministicFiniteAutomaton::move_nfa`: union of the symbol
transitions of all states in the set, then `epsilon_closure_set`. -/
def NondeterministicFiniteAutomaton.move_nfa (n : NondeterministicFiniteAutomaton)
    (states : Finset String) (symbol : Char) : Finset String :=
  n.epsilon_closure_set (states.biUnion fun s => (n.transition_nfa s (some symbol)).toFinset)

/-- One ε-transition step: `b` is among the ε-successors stored for `a`. -/
def epsStep (n : NondeterministicFiniteAutomaton) (a b : String) : Prop :=
  b ∈ n.transition_nfa a none

/-- Reachability via zero or more ε-transitions. -/
def epsReach (n : NondeterministicFiniteAutomaton) (s t : String) : Prop :=
  Relation.ReflTransGen (epsStep n) s t

theorem pushFresh_snd_mem (closure : Finset String) (work ts : List String) (x : String) :
    x ∈ (pushFresh closure work ts).2 ↔ x ∈ work ∨ (x ∈ ts ∧ x ∉ closure) := by
  induction ts generalizing closure work with
  | nil => simp [pushFresh]
  | cons t ts ih =>
      simp only [pushFresh]
      by_cases h : t ∈ closure
      · rw [if_pos h, ih]
        constructor
        · rintro (hx | ⟨hx1, hx2⟩)
          · exact Or.inl hx
          · exact Or.inr ⟨List.mem_cons_of_mem t hx1, hx2⟩
        · rintro (hx | ⟨hx1, hx2⟩)
          · exact Or.inl hx
          · rcases List.mem_cons.mp hx1 with rfl | hx1
            · exact absurd h hx2
            · exact Or.inr ⟨hx1, hx2⟩
      · rw [if_neg h, ih]
        constructor
        · rintro (hx | ⟨hx1, hx2⟩)
          · rcases List.mem_cons.mp hx with rfl | hx
            · exact Or.inr ⟨List.mem_cons_self x ts, h⟩
            · exact Or.inl hx
          · exact Or.inr ⟨List.mem_cons_of_mem t hx1, fun hc => hx2 (Finset.mem_insert_of_mem hc)⟩
        · rintro (hx | ⟨hx1, hx2⟩)
          · exact Or.inl (List.mem_cons_of_mem t hx)
          · rcases List.mem_cons.mp hx1 with rfl | hx1
            · exact Or.inl (List.mem_cons_self x work)
            · by_cases hxt : x = t
              · exact Or.inl (hxt ▸ List.mem_cons_self t work)
              · exact Or.inr ⟨hx1, fun hc =>
                  hx2 ((Finset.mem_insert.mp hc).elim (fun h1 => absurd h1 hxt) id)⟩

theorem pushFreshBack_snd_mem (closure : Finset String) (work ts : List String) (x : String) :
    x ∈ (pushFreshBack closure work ts).2 ↔ x ∈ work ∨ (x ∈ ts ∧ x ∉ closure) := by
  induction ts generalizing closure work with
  | nil => simp [pushFreshBack]
  | cons t ts ih =>
      simp only [pushFreshBack]
      by_cases h : t ∈ closure
      · rw [if_pos h, ih]
        constructor
        · rintro (hx | ⟨hx1, hx2⟩)
          · exact Or.inl hx
          · exact Or.inr ⟨List.mem_cons_of_mem t hx1, hx2⟩
        · rintro (hx | ⟨hx1, hx2⟩)
          · exact Or.inl hx
          · rcases List.mem_cons.mp hx1 with rfl | hx1
            · exact absurd h hx2
            · exact Or.inr ⟨hx1, hx2⟩
      · rw [if_neg h, ih]
        constructor
        · rintro (hx | ⟨hx1, hx2⟩)
          · rcases List.mem_append.mp hx with hx | hx
            · exact Or.inl hx
            · rcases List.mem_singleton.mp hx with rfl
              exact Or.inr ⟨List.mem_cons_self x ts, h⟩
          · exact Or.inr ⟨List.mem_cons_of_mem t hx1, fun hc => hx2 (Finset.mem_insert_of_mem hc)⟩
        · rintro (hx | ⟨hx1, hx2⟩)
          · exact Or.inl (List.mem_append_left _ hx)
          · rcases List.mem_cons.mp hx1 with rfl | hx1
            · exact Or.inl (List.mem_append_right _ (List.mem_singleton.mpr rfl))
            · by_cases hxt : x = t
              · exact Or.inl (List.mem_append_right _ (List.mem_singleton.mpr hxt))
              · exact Or.inr ⟨hx1, fun hc =>
                  hx2 ((Finset.mem_insert.mp hc).elim (fun h1 => absurd h1 hxt) id)⟩

theorem epsClosureLoop_mono (n : NondeterministicFiniteAutomaton)
    (closure : Finset String) (stack : List String) :
    closure ⊆ epsClosureLoop n closure stack := by
  induction closure, stack using epsClosureLoop.induct n with
  | case1 c => rw [epsClosureLoop]
  | case2 c s rest ih =>
      rw [epsClosureLoop]
      intro x hx
      apply ih
      rw [pushFresh_fst]
      exact Finset.mem_union_left _ hx

theorem epsClosureSetLoop_mono (n : NondeterministicFiniteAutomaton)
    (closure : Finset String) (queue : List String) :
    closure ⊆ epsClosureSetLoop n closure queue := by
  induction closure, queue using epsClosureSetLoop.induct n with
  | case1 c => rw [epsClosureSetLoop]
  | case2 c s rest ih =>
      rw [epsClosureSetLoop]
      intro x hx
      apply ih
      rw [pushFreshBack_fst]
      exact Finset.mem_union_left _ hx

theorem epsClosureLoop_sound (n : NondeterministicFiniteAutomaton) (P : String → Prop)
    (hP : ∀ a, P a → ∀ b, epsStep n a b → P b) (closure : Finset String) (stack : List String)
    (hcl : ∀ x ∈ closure, P x) (hst : ∀ x ∈ stack, x ∈ closure) :
    ∀ t ∈ epsClosureLoop n closure stack, P t := by
  induction closure, stack using epsClosureLoop.induct n with
  | case1 c =>
      rw [epsClosureLoop]
      exact fun t ht => hcl t ht
  | case2 c s rest ih =>
      rw [epsClosureLoop]
      apply ih
      · intro x hx
        rw [pushFresh_fst] at hx
        rcases Finset.mem_union.mp hx with hx | hx
        · exact hcl x hx
        · exact hP s (hcl s (hst s (List.mem_cons_self s rest))) x (List.mem_toFinset.mp hx)
      · intro x hx
        rw [pushFresh_snd_mem] at hx
        rw [pushFresh_fst]
        rcases hx with hx | ⟨hx1, _⟩
        · exact Finset.mem_union_left _ (hst x (List.mem_cons_of_mem s hx))
        · exact Finset.mem_union_right _ (List.mem_toFinset.mpr hx1)

theorem epsClosureSetLoop_sound (n : NondeterministicFiniteAutomaton) (P : String → Prop)
    (hP : ∀ a, P a → ∀ b, epsStep n a b → P b) (closure : Finset String) (queue : List String)
    (hcl : ∀ x ∈ closure, P x) (hst : ∀ x ∈ queue, x ∈ closure) :
    ∀ t ∈ epsClosureSetLoop n closure queue, P t := by
  induction closure, queue using epsClosureSetLoop.induct n with
  | case1 c =>
      rw [epsClosureSetLoop]
      exact fun t ht => hcl t ht
  | case2 c s rest ih =>
      rw [epsClosureSetLoop]
      apply ih
      · intro x hx
        rw [pushFreshBack_fst] at hx
        rcases Finset.mem_union.mp hx with hx | hx
        · exact hcl x hx
        · exact hP s (hcl s (hst s (List.mem_cons_self s rest))) x (List.mem_toFinset.mp hx)
      · intro x hx
        rw [pushFreshBack_snd_mem] at hx
        rw [pushFreshBack_fst]
        rcases hx with hx | ⟨hx1, _⟩
        · exact Finset.mem_union_left _ (hst x (List.mem_cons_of_mem s hx))
        · exact Finset.mem_union_right _ (List.mem_toFinset.mpr hx1)

theorem epsClosureLoop_closed (n : NondeterministicFiniteAutomaton)
    (closure : Finset String) (stack : List String)
    (hst : ∀ x ∈ stack, x ∈ closure)
    (hinv : ∀ x ∈ closure, (∀ y, epsStep n x y → y ∈ closure) ∨ x ∈ stack) :
    ∀ x ∈ epsClosureLoop n closure stack, ∀ y, epsStep n x y →
      y ∈ epsClosureLoop n closure stack := by
  induction closure, stack using epsClosureLoop.induct n with
  | case1 c =>
      rw [epsClosureLoop]
      intro x hx y hy
      rcases hinv x hx with hcl | hmem
      · exact hcl y hy
      · simp at hmem
  | case2 c s rest ih =>
      rw [epsClosureLoop]
      apply ih
      · intro x hx
        rw [pushFresh_snd_mem] at hx
        rw [pushFresh_fst]
        rcases hx with hx | ⟨hx1, _⟩
        · exact Finset.mem_union_left _ (hst x (List.mem_cons_of_mem s hx))
        · exact Finset.mem_union_right _ (List.mem_toFinset.mpr hx1)
      · intro x hx
        rw [pushFresh_fst] at hx
        rcases Finset.mem_union.mp hx with hx | hx
        · rcases hinv x hx with hcl | hmem
          · left
            intro y hy
            rw [pushFresh_fst]
            exact Finset.mem_union_left _ (hcl y hy)
          · rcases List.mem_cons.mp hmem with rfl | hmem
            · left
              intro y hy
              rw [pushFresh_fst]
              exact Finset.mem_union_right _ (List.mem_toFinset.mpr hy)
            · right
              rw [pushFresh_snd_mem]
              exact Or.inl hmem
        · by_cases hxc : x ∈ c
          · rcases hinv x hxc with hcl | hmem
            · left
              intro y hy
              rw [pushFresh_fst]
              exact Finset.mem_union_left _ (hcl y hy)
            · rcases List.mem_cons.mp hmem with rfl | hmem
              · left
                intro y hy
                rw [pushFresh_fst]
                exact Finset.mem_union_right _ (List.mem_toFinset.mpr hy)
              · right
                rw [pushFresh_snd_mem]
                exact Or.inl hmem
          · right
            rw [pushFresh_snd_mem]
            exact Or.inr ⟨List.mem_toFinset.mp hx, hxc⟩

theorem epsClosureSetLoop_closed (n : NondeterministicFiniteAutomaton)
    (closure : Finset String) (queue : List String)
    (hst : ∀ x ∈ queue, x ∈ closure)
    (hinv : ∀ x ∈ closure, (∀ y, epsStep n x y → y ∈ closure) ∨ x ∈ queue) :
    ∀ x ∈ epsClosureSetLoop n closure queue, ∀ y, epsStep n x y →
      y ∈ epsClosureSetLoop n closure queue := by
  induction closure, queue using epsClosureSetLoop.induct n with
  | case1 c =>
      rw [epsClosureSetLoop]
      intro x hx y hy
      rcases hinv x hx with hcl | hmem
      · exact hcl y hy
      · simp at hmem
  | case2 c s rest ih =>
      rw [epsClosureSetLoop]
      apply ih
      · intro x hx
        rw [pushFreshBack_snd_mem] at hx
        rw [pushFreshBack_fst]
        rcases hx with hx | ⟨hx1, _⟩
        · exact Finset.mem_union_left _ (hst x (List.mem_cons_of_mem s hx))
        · exact Finset.mem_union_right _ (List.mem_toFinset.mpr hx1)
      · intro x hx
        rw [pushFreshBack_fst] at hx
        rcases Finset.mem_union.mp hx with hx | hx
        · rcases hinv x hx with hcl | hmem
          · left
            intro y hy
            rw [pushFreshBack_fst]
            exact Finset.mem_union_left _ (hcl y hy)
          · rcases List.mem_cons.mp hmem with rfl | hmem
            · left
              intro y hy
              rw [pushFreshBack_fst]
              exact Finset.mem_union_right _ (List.mem_toFinset.mpr hy)
            · right
              rw [pushFreshBack_snd_mem]
              exact Or.inl hmem
        · by_cases hxc : x ∈ c
          · rcases hinv x hxc with hcl | hmem
            · left
              intro y hy
              rw [pushFreshBack_fst]
              exact Finset.mem_union_left _ (hcl y hy)
            · rcases List.mem_cons.mp hmem with rfl | hmem
              · left
                intro y hy
                rw [pushFreshBack_fst]
                exact Finset.mem_union_right _ (List.mem_toFinset.mpr hy)
              · right
                rw [pushFreshBack_snd_mem]
                exact Or.inl hmem
          · right
            rw [pushFreshBack_snd_mem]
            exact Or.inr ⟨List.mem_toFinset.mp hx, hxc⟩

/-- The single-state epsilon closure is exactly ε-reachability. -/
theorem mem_epsilon_closure (n : NondeterministicFiniteAutomaton) (s t : String) :
    t ∈ n.epsilon_closure s ↔ epsReach n s t := by
  constructor
  · intro ht
    refine epsClosureLoop_sound n (epsReach n s) ?_ {s} [s] ?_ ?_ t ht
    · exact fun a ha b hb => Relation.ReflTransGen.tail ha hb
    · intro x hx
      rw [Finset.mem_singleton] at hx
      exact hx ▸ Relation.ReflTransGen.refl
    · intro x hx
      rw [List.mem_singleton] at hx
      exact hx ▸ Finset.mem_singleton_self s
  · intro hr
    induction hr with
    | refl =>
        exact epsClosureLoop_mono n {s} [s] (Finset.mem_singleton_self s)
    | tail hab hbc ih =>
        refine epsClosureLoop_closed n {s} [s] ?_ ?_ _ ih _ hbc
        · intro x hx
          rw [List.mem_singleton] at hx
          exact hx ▸ Finset.mem_singleton_self s
        · intro x hx
          rw [Finset.mem_singleton] at hx
          exact Or.inr (hx ▸ List.mem_singleton.mpr rfl)

/-- The set-level epsilon closure is exactly ε-reachability from some member. -/
theorem mem_epsilon_closure_set (n : NondeterministicFiniteAutomaton)
    (S : Finset String) (t : String) :
    t ∈ n.epsilon_closure_set S ↔ ∃ s ∈ S, epsReach n s t := by
  constructor
  · intro ht
    refine epsClosureSetLoop_sound n (fun x => ∃ s ∈ S, epsReach n s x) ?_ S (enumOf S) ?_ ?_ t ht
    · rintro a ⟨s, hs, ha⟩ b hb
      exact ⟨s, hs, Relation.ReflTransGen.tail ha hb⟩
    · exact fun x hx => ⟨x, hx, Relation.ReflTransGen.refl⟩
    · exact fun x hx => (enumOf_mem S x).mp hx
  · rintro ⟨s, hs, hr⟩
    induction hr with
    | refl => exact epsClosureSetLoop_mono n S (enumOf S) hs
    | tail hab hbc ih =>
        refine epsClosureSetLoop_closed n S (enumOf S) ?_ ?_ _ ih _ hbc
        · exact fun x hx => (enumOf_mem S x).mp hx
        · exact fun x hx => Or.inr ((enumOf_mem S x).mpr hx)

theorem self_mem_epsilon_closure (n : NondeterministicFiniteAutomaton) (s : String) :
    s ∈ n.epsilon_closure s :=
  (mem_epsilon_closure n s s).mpr Relation.ReflTransGen.refl

theorem epsilon_closure_set_singleton (n : NondeterministicFiniteAutomaton) (s : String) :
    n.epsilon_closure_set {s} = n.epsilon_closure s := by
  ext t
  rw [mem_epsilon_closure_set, mem_epsilon_closure]
  constructor
  · rintro ⟨x, hx, hr⟩
    rw [Finset.mem_singleton] at hx
    exact hx ▸ hr
  · exact fun hr => ⟨s, Finset.mem_singleton_self s, hr⟩

theorem epsilon_closure_set_biUnion (n : NondeterministicFiniteAutomaton) (S : Finset String) :
    n.epsilon_closure_set S = S.biUnion fun s => n.epsilon_closure s := by
  ext t
  rw [mem_epsilon_closure_set, Finset.mem_biUnion]
  exact exists_congr fun s => and_congr_right fun _ => (mem_epsilon_closure n s t).symm

theorem epsilon_closure_set_idem (n : NondeterministicFiniteAutomaton) (S : Finset String) :
    n.epsilon_closure_set (n.epsilon_closure_set S) = n.epsilon_closure_set S := by
  ext t
  rw [mem_epsilon_closure_set, mem_epsilon_closure_set]
  constructor
  · rintro ⟨u, hu, hr⟩
    rcases (mem_epsilon_closure_set n S u).mp hu with ⟨s, hs, hr2⟩
    exact ⟨s, hs, hr2.trans hr⟩
  · rintro ⟨s, hs, hr⟩
    exact ⟨t, (mem_epsilon_closure_set n S t).mpr ⟨s, hs, hr⟩, Relation.ReflTransGen.refl⟩

/-- Variant of the `epsilon_closure` worklist loop that additionally records
every state ever pushed onto the stack (in push order); the loop itself is
unchanged. -/
def epsClosurePushes (n : NondeterministicFiniteAutomaton) :
    Finset String → List String → List String → Finset String × List String
  | closure, [], pushed => (closure, pushed)
  | closure, s :: rest, pushed =>
      epsClosurePushes n (pushFresh closure rest (n.transition_nfa s none)).1
        (pushFresh closure rest (n.transition_nfa s none)).2
        (pushed ++ (pushFresh closure [] (n.transition_nfa s none)).2)
termination_by closure stack _ => (n.allTargets \ closure).card + stack.length
decreasing_by
  have h := pushFresh_measure n.allTargets closure rest (n.transition_nfa s none)
    (fun t ht => transition_nfa_subset_allTargets n s none t ht)
  simp only [List.length_cons]
  omega

/-- `epsilon_closure` together with the list of all states ever pushed onto its
worklist (the seed state counts as the first push, `vec![state]`). -/
def NondeterministicFiniteAutomaton.epsilon_closure_pushes
    (n : NondeterministicFiniteAutomaton) (state : String) : Finset String × List String :=
  epsClosurePushes n {state} [state] [state]

theorem epsClosurePushes_fst (n : NondeterministicFiniteAutomaton)
    (closure : Finset String) (stack pushed : List String) :
    (epsClosurePushes n closure stack pushed).1 = epsClosureLoop n closure stack := by
  induction closure, stack, pushed using epsClosurePushes.induct n with
  | case1 c p => rw [epsClosurePushes, epsClosureLoop]
  | case2 c s rest p ih => rw [epsClosurePushes, epsClosureLoop]; exact ih

theorem pushFresh_nodup (closure : Finset String) (work ts : List String)
    (hw : work.Nodup) (hwc : ∀ x ∈ work, x ∈ closure) :
    (pushFresh closure work ts).2.Nodup ∧
      ∀ x ∈ (pushFresh closure work ts).2, x ∈ (pushFresh closure work ts).1 := by
  induction ts generalizing closure work with
  | nil => exact ⟨hw, hwc⟩
  | cons t ts ih =>
      simp only [pushFresh]
      by_cases h : t ∈ closure
      · rw [if_pos h]
        exact ih closure work hw hwc
      · rw [if_neg h]
        refine ih (insert t closure) (t :: work) ?_ ?_
        · exact List.nodup_cons.mpr ⟨fun hc => h (hwc t hc), hw⟩
        · intro x hx
          rcases List.mem_cons.mp hx with rfl | hx
          · exact Finset.mem_insert_self x closure
          · exact Finset.mem_insert_of_mem (hwc x hx)

theorem epsClosurePushes_nodup (n : NondeterministicFiniteAutomaton)
    (closure : Finset String) (stack pushed : List String)
    (hp : pushed.Nodup) (hpc : ∀ x ∈ pushed, x ∈ closure) :
    (epsClosurePushes n closure stack pushed).2.Nodup := by
  induction closure, stack, pushed using epsClosurePushes.induct n with
  | case1 c p =>
      rw [epsClosurePushes]
      exact hp
  | case2 c s rest p ih =>
      rw [epsClosurePushes]
      have hfresh := pushFresh_nodup c [] (n.transition_nfa s none) List.nodup_nil (by simp)
      refine ih ?_ ?_
      · rw [List.nodup_append]
        refine ⟨hp, hfresh.1, ?_⟩
        intro x hx hx2
        have h1 : x ∈ c := hpc x hx
        have h2 := (pushFresh_snd_mem c [] (n.transition_nfa s none) x).mp hx2
        rcases h2 with h2 | ⟨_, h2⟩
        · simp at h2
        · exact h2 h1
      · intro x hx
        rw [pushFresh_fst]
        rcases List.mem_append.mp hx with hx | hx
        · exact Finset.mem_union_left _ (hpc x hx)
        · have h2 := (pushFresh_snd_mem c [] (n.transition_nfa s none) x).mp hx
          rcases h2 with h2 | ⟨h2, _⟩
          · simp at h2
          · exact Finset.mem_union_right _ (List.mem_toFinset.mpr h2)

theorem epsilon_closure_pushes_spec (n : NondeterministicFiniteAutomaton) (state : String) :
    (n.epsilon_closure_pushes state).2.Nodup ∧
      (n.epsilon_closure_pushes state).1 = n.epsilon_closure state := by
  constructor
  · refine epsClosurePushes_nodup n {state} [state] [state] (List.nodup_singleton state) ?_
    intro x hx
    rw [List.mem_singleton] at hx
    exact hx ▸ Finset.mem_singleton_self state
  · exact epsClosurePushes_fst n {state} [state] [state]

theorem mem_nfaStep (n : NondeterministicFiniteAutomaton) (S : Finset String)
    (c : Char) (x : String) :
    x ∈ nfaStep n S c ↔
      ∃ s ∈ S, ∃ r ∈ n.transition_nfa s (some c), epsReach n r x := by
  unfold nfaStep
  simp only [Finset.mem_biUnion, List.mem_toFinset, mem_epsilon_closure]

theorem mem_move_nfa (n : NondeterministicFiniteAutomaton) (S : Finset String)
    (c : Char) (x : String) :
    x ∈ n.move_nfa S c ↔
      ∃ s ∈ S, ∃ r ∈ n.transition_nfa s (some c), epsReach n r x := by
  unfold NondeterministicFiniteAutomaton.move_nfa
  rw [mem_epsilon_closure_set]
  simp only [Finset.mem_biUnion, List.mem_toFinset]
  constructor
  · rintro ⟨r, ⟨s, hs, hr⟩, hx⟩
    exact ⟨s, hs, r, hr, hx⟩
  · rintro ⟨s, hs, r, hr, hx⟩
    exact ⟨r, ⟨s, hs, hr⟩, hx⟩

theorem nfaStep_eq_move_nfa (n : NondeterministicFiniteAutomaton) (S : Finset String)
    (c : Char) : nfaStep n S c = n.move_nfa S c := by
  ext x
  rw [mem_nfaStep, mem_move_nfa]

/-- Iterating `move_nfa` over an input string (the semantic transition function
of the subset construction). -/
def metaRun (n : NondeterministicFiniteAutomaton) (M : Finset String) (w : List Char) :
    Finset String :=
  w.foldl n.move_nfa M

theorem nfa_accepts_eq_metaRun (n : NondeterministicFiniteAutomaton) (w : List Char) :
    n.accepts w =
      decide (∃ s ∈ metaRun n (n.epsilon_closure_set {n.start_state}) w, s ∈ n.accept_states) := by
  unfold NondeterministicFiniteAutomaton.accepts metaRun
  rw [epsilon_closure_set_singleton]
  have hstep : nfaStep n = n.move_nfa := by
    funext S c
    exact nfaStep_eq_move_nfa n S c
  rw [hstep, decide_eq_decide]
  constructor <;> rintro ⟨s, h1, h2⟩ <;> exact ⟨s, h1, by simpa [NondeterministicFiniteAutomaton.is_accepting] using h2⟩

theorem move_nfa_empty (n : NondeterministicFiniteAutomaton) (c : Char) :
    n.move_nfa ∅ c = ∅ := by
  ext x
  rw [mem_move_nfa]
  simp

theorem metaRun_empty (n : NondeterministicFiniteAutomaton) (w : List Char) :
    metaRun n ∅ w = ∅ := by
  induction w with
  | nil => rfl
  | cons c rest ih =>
      unfold metaRun
      rw [List.foldl_cons, move_nfa_empty]
      exact ih

/-- Canonical enumeration of a `Finset Char`, modelling `for symbol in
&nfa.alphabet` (iteration order of a `HashSet<char>` is unspecified). -/
def enumOfC (C : Finset Char) : List Char := C.sort (· ≤ ·)

theorem enumOfC_mem (C : Finset Char) (c : Char) : c ∈ enumOfC C ↔ c ∈ C :=
  Finset.mem_sort _

theorem epsReach_target (n : NondeterministicFiniteAutomaton) (r x : String)
    (h : epsReach n r x) : x = r ∨ x ∈ n.allTargets := by
  rcases Relation.ReflTransGen.cases_tail h with h | ⟨c, _, hc⟩
  · exact Or.inl h
  · exact Or.inr (transition_nfa_subset_allTargets n c none x hc)

theorem move_nfa_subset_allTargets (n : NondeterministicFiniteAutomaton)
    (M : Finset String) (c : Char) : n.move_nfa M c ⊆ n.allTargets := by
  intro x hx
  rcases (mem_move_nfa n M c x).mp hx with ⟨s, _, r, hr, hreach⟩
  rcases epsReach_target n r x hreach with rfl | h
  · exact transition_nfa_subset_allTargets n s (some c) x hr
  · exact h

/-- The finite universe of meta-states: every meta-state the determinizer can
discover is a subset of the NFA's start state together with all transition
targets. -/
def metaP (n : NondeterministicFiniteAutomaton) : Finset (Finset String) :=
  (insert n.start_state n.allTargets).powerset

theorem move_nfa_mem_metaP (n : NondeterministicFiniteAutomaton)
    (M : Finset String) (c : Char) : n.move_nfa M c ∈ metaP n :=
  Finset.mem_powerset.mpr
    ((move_nfa_subset_allTargets n M c).trans (Finset.subset_insert _ _))

/-- The mutable state of the determinization loop: the BFS queue of unprocessed
meta-states, the visited meta-states in discovery order (Rust's `visited`
`HashSet` plus the iteration order later used to assign names), and the
meta-state transition map in insertion order. -/
structure DetAcc where
  queue : List (Finset String)
  visited : List (Finset String)
  trans : List ((Finset String × Char) × Finset String)

/-- The `for symbol in &nfa.alphabet` loop body of `determinize`, for one
dequeued meta-state `M`: compute `next = move_nfa(M, symbol)`; if non-empty,
record the transition and, when `next` is new, mark it visited and enqueue
it.  The `∈ acc.visited` test models `visited.insert` as deduplication by set
equality — the behavior a correct, order-independent `HashableHashSet` hash
would give.  The program's actual `HashSet<HashableHashSet>` lookup goes
through the iteration-order-dependent hash and can miss an equal stored set
(see `hsContains`), so exactly-once processing holds of this idealized model
but not of the program. -/
def processSymbols (n : NondeterministicFiniteAutomaton) (M : Finset String) :
    List Char → DetAcc → DetAcc
  | [], acc => acc
  | c :: cs, acc =>
      if n.move_nfa M c = ∅ then processSymbols n M cs acc
      else
        if n.move_nfa M c ∈ acc.visited then
          processSymbols n M cs ⟨acc.queue, acc.visited, ((M, c), n.move_nfa M c) :: acc.trans⟩
        else
          processSymbols n M cs
            ⟨acc.queue ++ [n.move_nfa M c], acc.visited ++ [n.move_nfa M c],
              ((M, c), n.move_nfa M c) :: acc.trans⟩

theorem processSymbols_measure (n : NondeterministicFiniteAutomaton) (M : Finset String)
    (cs : List Char) (acc : DetAcc) :
    (metaP n \ (processSymbols n M cs acc).visited.toFinset).card
        + (processSymbols n M cs acc).queue.length
      = (metaP n \ acc.visited.toFinset).card + acc.queue.length := by
  induction cs generalizing acc with
  | nil => rfl
  | cons c cs ih =>
      simp only [processSymbols]
      by_cases h1 : n.move_nfa M c = ∅
      · rw [if_pos h1]
        exact ih acc
      · rw [if_neg h1]
        by_cases h2 : n.move_nfa M c ∈ acc.visited
        · rw [if_pos h2]
          exact ih _
        · rw [if_neg h2]
          rw [ih _]
          have hmem : n.move_nfa M c ∈ metaP n \ acc.visited.toFinset :=
            Finset.mem_sdiff.mpr ⟨move_nfa_mem_metaP n M c, fun hc => h2 (List.mem_toFinset.mp hc)⟩
          have hcard : (metaP n \ (acc.visited ++ [n.move_nfa M c]).toFinset).card
              = (metaP n \ acc.visited.toFinset).card - 1 := by
            rw [List.toFinset_append, List.toFinset_cons, List.toFinset_nil,
              insert_emptyc_eq, Finset.union_comm, ← Finset.insert_eq, Finset.sdiff_insert]
            exact Finset.card_erase_of_mem hmem
          have hpos : 0 < (metaP n \ acc.visited.toFinset).card :=
            Finset.card_pos.mpr ⟨_, hmem⟩
          simp only [hcard, List.length_append, List.length_cons, List.length_nil]
          omega

/-- The outer `while let Some(current_dfa_state) = queue.pop_front()` loop of
`determinize`, with the queue, visited list, transition map and accepting
meta-state set as explicit state. -/
def detLoop (n : NondeterministicFiniteAutomaton) :
    List (Finset String) → List (Finset String) →
      List ((Finset String × Char) × Finset String) → Finset (Finset String) →
      DetAcc × Finset (Finset String)
  | [], visited, tf, accepts => (⟨[], visited, tf⟩, accepts)
  | M :: rest, visited, tf, accepts =>
      detLoop n (processSymbols n M (enumOfC n.alphabet) ⟨rest, visited, tf⟩).queue
        (processSymbols n M (enumOfC n.alphabet) ⟨rest, visited, tf⟩).visited
        (processSymbols n M (enumOfC n.alphabet) ⟨rest, visited, tf⟩).trans
        (if (M ∩ n.accept_states).Nonempty then insert M accepts else accepts)
termination_by queue visited _ _ => (metaP n \ visited.toFinset).card + queue.length
decreasing_by
  have h := processSymbols_measure n M (enumOfC n.alphabet) ⟨rest, visited, tf⟩
  dsimp only at h
  simp only [List.length_cons]
  omega

/-- The sequence of meta-states dequeued by the determinization loop, recorded
by the same recursion as `detLoop`. -/
def detTrace (n : NondeterministicFiniteAutomaton) :
    List (Finset String) → List (Finset String) →
      List ((Finset String × Char) × Finset String) → List (Finset String)
  | [], _, _ => []
  | M :: rest, visited, tf =>
      M :: detTrace n (processSymbols n M (enumOfC n.alphabet) ⟨rest, visited, tf⟩).queue
        (processSymbols n M (enumOfC n.alphabet) ⟨rest, visited, tf⟩).visited
        (processSymbols n M (enumOfC n.alphabet) ⟨rest, visited, tf⟩).trans
termination_by queue visited _ => (metaP n \ visited.toFinset).card + queue.length
decreasing_by
  have h := processSymbols_measure n M (enumOfC n.alphabet) ⟨rest, visited, tf⟩
  dsimp only at h
  simp only [List.length_cons]
  omega

/-- Position of a meta-state in the visited list, modelling the monotonically
increasing counter with which `determinize` assigns final state names while
iterating over `visited`. -/
def posIn : List (Finset String) → Finset String → Nat
  | [], _ => 0
  | x :: xs, S => if x = S then 0 else posIn xs S + 1

/-- The start meta-state of the subset construction. -/
def startMeta (n : NondeterministicFiniteAutomaton) : Finset String :=
  n.epsilon_closure_set {n.start_state}

/-- The final state name assigned to a meta-state (`format!("q{}", counter)`).  -/
def metaName (visited : List (Finset String)) (S : Finset String) : String :=
  "q" ++ toString (posIn visited S)

/-- The full run of the determinization loop: queue and visited seeded with the
start meta-state, empty transition map, empty accepting set. -/
def detResult (n : NondeterministicFiniteAutomaton) : DetAcc × Finset (Finset String) :=
  detLoop n [startMeta n] [startMeta n] [] ∅

/-- `determinize` from `src/automata.rs`: breadth-first subset construction,
then renaming of the discovered meta-states to fresh string names. -/
def determinize (n : NondeterministicFiniteAutomaton) : DeterministicFiniteAutomaton :=
  { states := ((detResult n).1.visited.map (metaName (detResult n).1.visited)).toFinset
    alphabet := n.alphabet
    transition_function := (detResult n).1.trans.map
      (fun e => ((metaName (detResult n).1.visited e.1.1, e.1.2),
        metaName (detResult n).1.visited e.2))
    start_state := metaName (detResult n).1.visited (startMeta n)
    accept_states := (detResult n).2.image (metaName (detResult n).1.visited) }

theorem processSymbols_ext (n : NondeterministicFiniteAutomaton) (M : Finset String)
    (cs : List Char) (acc : DetAcc) :
    ∃ ext : List (Finset String),
      (processSymbols n M cs acc).queue = acc.queue ++ ext ∧
      (processSymbols n M cs acc).visited = acc.visited ++ ext ∧
      ext.Nodup ∧
      ∀ x ∈ ext, x ∉ acc.visited ∧ x ≠ ∅ ∧ ∃ c ∈ cs, x = n.move_nfa M c := by
  induction cs generalizing acc with
  | nil =>
      exact ⟨[], by simp [processSymbols], by simp [processSymbols], List.nodup_nil, by simp⟩
  | cons c cs ih =>
      simp only [processSymbols]
      by_cases h1 : n.move_nfa M c = ∅
      · rw [if_pos h1]
        rcases ih acc with ⟨ext, he1, he2, he3, he4⟩
        exact ⟨ext, he1, he2, he3, fun x hx =>
          ⟨(he4 x hx).1, (he4 x hx).2.1,
            (he4 x hx).2.2.elim fun c' hc' => ⟨c', List.mem_cons_of_mem c hc'.1, hc'.2⟩⟩⟩
      · rw [if_neg h1]
        by_cases h2 : n.move_nfa M c ∈ acc.visited
        · rw [if_pos h2]
          rcases ih ⟨acc.queue, acc.visited, ((M, c), n.move_nfa M c) :: acc.trans⟩ with
            ⟨ext, he1, he2, he3, he4⟩
          exact ⟨ext, he1, he2, he3, fun x hx =>
            ⟨(he4 x hx).1, (he4 x hx).2.1,
              (he4 x hx).2.2.elim fun c' hc' => ⟨c', List.mem_cons_of_mem c hc'.1, hc'.2⟩⟩⟩
        · rw [if_neg h2]
          rcases ih ⟨acc.queue ++ [n.move_nfa M c], acc.visited ++ [n.move_nfa M c],
            ((M, c), n.move_nfa M c) :: acc.trans⟩ with ⟨ext, he1, he2, he3, he4⟩
          refine ⟨n.move_nfa M c :: ext, ?_, ?_, ?_, ?_⟩
          · rw [he1]
            simp
          · rw [he2]
            simp
          · refine List.nodup_cons.mpr ⟨fun hc => ?_, he3⟩
            have := (he4 _ hc).1
            simp at this
          · intro x hx
            rcases List.mem_cons.mp hx with rfl | hx
            · exact ⟨h2, h1, c, List.mem_cons_self c cs, rfl⟩
            · have h4 := he4 x hx
              refine ⟨fun hc => h4.1 (by simp [hc]), h4.2.1,
                h4.2.2.elim fun c' hc' => ⟨c', List.mem_cons_of_mem c hc'.1, hc'.2⟩⟩

theorem processSymbols_visited_mono (n : NondeterministicFiniteAutomaton) (M : Finset String)
    (cs : List Char) (acc : DetAcc) (x : Finset String) (hx : x ∈ acc.visited) :
    x ∈ (processSymbols n M cs acc).visited := by
  rcases processSymbols_ext n M cs acc with ⟨ext, _, he2, _, _⟩
  rw [he2]
  exact List.mem_append_left _ hx

theorem processSymbols_trans (n : NondeterministicFiniteAutomaton) (M : Finset String)
    (cs : List Char) (acc : DetAcc) :
    ∃ added, (processSymbols n M cs acc).trans = added ++ acc.trans ∧
      ∀ e ∈ added, e.1.1 = M ∧ e.1.2 ∈ cs ∧ e.2 = n.move_nfa M e.1.2 ∧ e.2 ≠ ∅ ∧
        e.2 ∈ (processSymbols n M cs acc).visited := by
  induction cs generalizing acc with
  | nil => exact ⟨[], by simp [processSymbols], by simp⟩
  | cons c cs ih =>
      simp only [processSymbols]
      by_cases h1 : n.move_nfa M c = ∅
      · rw [if_pos h1]
        rcases ih acc with ⟨added, ha1, ha2⟩
        exact ⟨added, ha1, fun e he =>
          ⟨(ha2 e he).1, List.mem_cons_of_mem c (ha2 e he).2.1, (ha2 e he).2.2⟩⟩
      · rw [if_neg h1]
        by_cases h2 : n.move_nfa M c ∈ acc.visited
        · rw [if_pos h2]
          rcases ih ⟨acc.queue, acc.visited, ((M, c), n.move_nfa M c) :: acc.trans⟩ with
            ⟨added, ha1, ha2⟩
          refine ⟨added ++ [((M, c), n.move_nfa M c)], ?_, ?_⟩
          · rw [ha1]
            simp
          · intro e he
            rcases List.mem_append.mp he with he | he
            · exact ⟨(ha2 e he).1, List.mem_cons_of_mem c (ha2 e he).2.1, (ha2 e he).2.2⟩
            · rcases List.mem_singleton.mp he with rfl
              exact ⟨rfl, List.mem_cons_self c cs, rfl, h1,
                processSymbols_visited_mono n M cs _ _ h2⟩
        · rw [if_neg h2]
          rcases ih ⟨acc.queue ++ [n.move_nfa M c], acc.visited ++ [n.move_nfa M c],
            ((M, c), n.move_nfa M c) :: acc.trans⟩ with ⟨added, ha1, ha2⟩
          refine ⟨added ++ [((M, c), n.move_nfa M c)], ?_, ?_⟩
          · rw [ha1]
            simp
          · intro e he
            rcases List.mem_append.mp he with he | he
            · exact ⟨(ha2 e he).1, List.mem_cons_of_mem c (ha2 e he).2.1, (ha2 e he).2.2⟩
            · rcases List.mem_singleton.mp he with rfl
              refine ⟨rfl, List.mem_cons_self c cs, rfl, h1,
                processSymbols_visited_mono n M cs _ _ ?_⟩
              simp

theorem processSymbols_trans_mono (n : NondeterministicFiniteAutomaton) (M : Finset String)
    (cs : List Char) (acc : DetAcc) (e : (Finset String × Char) × Finset String)
    (he : e ∈ acc.trans) : e ∈ (processSymbols n M cs acc).trans := by
  rcases processSymbols_trans n M cs acc with ⟨added, ha1, _⟩
  rw [ha1]
  exact List.mem_append_right _ he

theorem processSymbols_processed (n : NondeterministicFiniteAutomaton) (M : Finset String)
    (cs : List Char) (acc : DetAcc) (c : Char) (hc : c ∈ cs)
    (hne : n.move_nfa M c ≠ ∅) :
    ∃ e ∈ (processSymbols n M cs acc).trans, e.1 = (M, c) ∧ e.2 = n.move_nfa M c := by
  induction cs generalizing acc with
  | nil => simp at hc
  | cons c' cs ih =>
      simp only [processSymbols]
      rcases List.mem_cons.mp hc with rfl | hc
      · rw [if_neg hne]
        by_cases h2 : n.move_nfa M c ∈ acc.visited
        · rw [if_pos h2]
          exact ⟨((M, c), n.move_nfa M c),
            processSymbols_trans_mono n M cs _ _ (List.mem_cons_self _ _), rfl, rfl⟩
        · rw [if_neg h2]
          exact ⟨((M, c), n.move_nfa M c),
            processSymbols_trans_mono n M cs _ _ (List.mem_cons_self _ _), rfl, rfl⟩
      · by_cases h1 : n.move_nfa M c' = ∅
        · rw [if_pos h1]
          exact ih acc hc
        · rw [if_neg h1]
          by_cases h2 : n.move_nfa M c' ∈ acc.visited
          · rw [if_pos h2]
            exact ih _ hc
          · rw [if_neg h2]
            exact ih _ hc

theorem detLoop_spec (n : NondeterministicFiniteAutomaton)
    (R : Finset String → Prop)
    (hRstep : ∀ M, R M → ∀ c ∈ n.alphabet, n.move_nfa M c ≠ ∅ → R (n.move_nfa M c))
    (Q V : List (Finset String)) (T : List ((Finset String × Char) × Finset String))
    (A : Finset (Finset String))
    (hQnd : Q.Nodup) (hVnd : V.Nodup) (hQV : ∀ M ∈ Q, M ∈ V)
    (hR0 : ∀ M ∈ V, R M)
    (hT : ∀ e ∈ T, e.1.1 ∈ V ∧ e.1.1 ∉ Q ∧ e.1.2 ∈ n.alphabet ∧
      e.2 = n.move_nfa e.1.1 e.1.2 ∧ e.2 ≠ ∅ ∧ e.2 ∈ V)
    (hProc : ∀ M ∈ V, M ∉ Q → ∀ c ∈ n.alphabet, n.move_nfa M c ≠ ∅ →
      ∃ e ∈ T, e.1 = (M, c) ∧ e.2 = n.move_nfa M c)
    (hA : ∀ M, M ∈ A ↔ M ∈ V ∧ M ∉ Q ∧ (M ∩ n.accept_states).Nonempty) :
    (detLoop n Q V T A).1.visited.Nodup ∧
    (∀ M ∈ V, M ∈ (detLoop n Q V T A).1.visited) ∧
    (∀ M ∈ (detLoop n Q V T A).1.visited, R M) ∧
    (∀ e ∈ (detLoop n Q V T A).1.trans, e.1.1 ∈ (detLoop n Q V T A).1.visited ∧
      e.1.2 ∈ n.alphabet ∧ e.2 = n.move_nfa e.1.1 e.1.2 ∧ e.2 ≠ ∅ ∧
      e.2 ∈ (detLoop n Q V T A).1.visited) ∧
    (∀ M ∈ (detLoop n Q V T A).1.visited, ∀ c ∈ n.alphabet, n.move_nfa M c ≠ ∅ →
      ∃ e ∈ (detLoop n Q V T A).1.trans, e.1 = (M, c) ∧ e.2 = n.move_nfa M c) ∧
    (∀ M, M ∈ (detLoop n Q V T A).2 ↔ M ∈ (detLoop n Q V T A).1.visited ∧
      (M ∩ n.accept_states).Nonempty) := by
  revert hQnd hVnd hQV hR0 hT hProc hA
  induction Q, V, T, A using detLoop.induct n with
  | case1 visited tf accepts =>
      intro hQnd hVnd hQV hR0 hT hProc hA
      rw [detLoop]
      refine ⟨hVnd, fun M hM => hM, hR0, ?_, ?_, ?_⟩
      · intro e he
        exact ⟨(hT e he).1, (hT e he).2.2.1, (hT e he).2.2.2.1, (hT e he).2.2.2.2.1,
          (hT e he).2.2.2.2.2⟩
      · intro M hM c hc hne
        exact hProc M hM (List.not_mem_nil M) c hc hne
      · intro M
        rw [hA M]
        exact ⟨fun h => ⟨h.1, h.2.2⟩, fun h => ⟨h.1, List.not_mem_nil M, h.2⟩⟩
  | case2 M rest visited tf accepts ih =>
      intro hQnd hVnd hQV hR0 hT hProc hA
      rcases processSymbols_ext n M (enumOfC n.alphabet) ⟨rest, visited, tf⟩ with
        ⟨ext, he1, he2, hend, hextp⟩
      rcases processSymbols_trans n M (enumOfC n.alphabet) ⟨rest, visited, tf⟩ with
        ⟨added, ha1, haddp⟩
      dsimp only at he1 he2 hend hextp ha1 haddp
      have hMvis : M ∈ visited := hQV M (List.mem_cons_self M rest)
      have hMrest : M ∉ rest := (List.nodup_cons.mp hQnd).1
      have hrestnd : rest.Nodup := (List.nodup_cons.mp hQnd).2
      have hextV : ∀ x ∈ ext, x ∉ visited := fun x hx => (hextp x hx).1
      have hMext : M ∉ ext := fun hc => hextV M hc hMvis
      have hMQ' : M ∉ rest ++ ext := fun hc =>
        (List.mem_append.mp hc).elim hMrest hMext
      rw [detLoop, he1, he2, ha1]
      rw [he1, he2, ha1] at ih
      have hh1 : (rest ++ ext).Nodup := by
        rw [List.nodup_append]
        exact ⟨hrestnd, hend, fun x hx hx2 => hextV x hx2 (hQV x (List.mem_cons_of_mem M hx))⟩
      have hh2 : (visited ++ ext).Nodup := by
        rw [List.nodup_append]
        exact ⟨hVnd, hend, fun x hx hx2 => hextV x hx2 hx⟩
      have hh3 : ∀ X ∈ rest ++ ext, X ∈ visited ++ ext := by
        intro X hX
        rcases List.mem_append.mp hX with hX | hX
        · exact List.mem_append_left _ (hQV X (List.mem_cons_of_mem M hX))
        · exact List.mem_append_right _ hX
      have hh4 : ∀ X ∈ visited ++ ext, R X := by
        intro X hX
        rcases List.mem_append.mp hX with hX | hX
        · exact hR0 X hX
        · rcases hextp X hX with ⟨_, hne, c, hc, rfl⟩
          exact hRstep M (hR0 M hMvis) c ((enumOfC_mem n.alphabet c).mp hc) hne
      have hh5 : ∀ e ∈ added ++ tf, e.1.1 ∈ visited ++ ext ∧ e.1.1 ∉ rest ++ ext ∧
          e.1.2 ∈ n.alphabet ∧ e.2 = n.move_nfa e.1.1 e.1.2 ∧ e.2 ≠ ∅ ∧
          e.2 ∈ visited ++ ext := by
        intro e he
        rcases List.mem_append.mp he with he | he
        · rcases haddp e he with ⟨hf1, hf2, hf3, hf4, hf5⟩
          refine ⟨?_, ?_, ?_, ?_, hf4, ?_⟩
          · exact List.mem_append_left _ (hf1 ▸ hMvis)
          · intro hc
            rcases List.mem_append.mp hc with hc | hc
            · exact hMrest (hf1 ▸ hc)
            · exact hMext (hf1 ▸ hc)
          · exact (enumOfC_mem n.alphabet e.1.2).mp hf2
          · rw [hf3, hf1]
          · rw [he2] at hf5
            exact hf5
        · rcases hT e he with ⟨hf1, hf2, hf3, hf4, hf5, hf6⟩
          refine ⟨List.mem_append_left _ hf1, ?_, hf3, hf4, hf5, List.mem_append_left _ hf6⟩
          intro hc
          rcases List.mem_append.mp hc with hc | hc
          · exact hf2 (List.mem_cons_of_mem M hc)
          · exact hextV _ hc hf1
      have hh6 : ∀ X ∈ visited ++ ext, X ∉ rest ++ ext → ∀ c ∈ n.alphabet,
          n.move_nfa X c ≠ ∅ → ∃ e ∈ added ++ tf, e.1 = (X, c) ∧ e.2 = n.move_nfa X c := by
        intro X hX hXQ c hc hne
        rcases List.mem_append.mp hX with hX | hX
        · by_cases hXM : X = M
          · subst hXM
            rcases processSymbols_processed n X (enumOfC n.alphabet)
              ⟨rest, visited, tf⟩ c ((enumOfC_mem n.alphabet c).mpr hc) hne with ⟨e, he, hek, hev⟩
            rw [ha1] at he
            exact ⟨e, he, hek, hev⟩
          · have hXQ0 : X ∉ M :: rest := by
              intro hc2
              rcases List.mem_cons.mp hc2 with hc2 | hc2
              · exact hXM hc2
              · exact hXQ (List.mem_append_left _ hc2)
            rcases hProc X hX hXQ0 c hc hne with ⟨e, he, hek, hev⟩
            exact ⟨e, List.mem_append_right _ he, hek, hev⟩
        · exact absurd (List.mem_append_right _ hX) hXQ
      have hh7 : ∀ X, X ∈ (if h : (M ∩ n.accept_states).Nonempty then insert M accepts
          else accepts) ↔ X ∈ visited ++ ext ∧ X ∉ rest ++ ext ∧
          (X ∩ n.accept_states).Nonempty := by
        intro X
        by_cases hacc : (M ∩ n.accept_states).Nonempty
        · rw [dif_pos hacc]
          constructor
          · intro hX
            rcases Finset.mem_insert.mp hX with rfl | hX
            · exact ⟨List.mem_append_left _ hMvis, hMQ', hacc⟩
            · rcases (hA X).mp hX with ⟨hv, hq, hn⟩
              refine ⟨List.mem_append_left _ hv, ?_, hn⟩
              intro hc
              rcases List.mem_append.mp hc with hc | hc
              · exact hq (List.mem_cons_of_mem M hc)
              · exact hextV _ hc hv
          · rintro ⟨hv, hq, hn⟩
            rcases List.mem_append.mp hv with hv | hv
            · by_cases hXM : X = M
              · exact Finset.mem_insert.mpr (Or.inl hXM)
              · refine Finset.mem_insert.mpr (Or.inr ((hA X).mpr ⟨hv, ?_, hn⟩))
                intro hc
                rcases List.mem_cons.mp hc with hc | hc
                · exact hXM hc
                · exact hq (List.mem_append_left _ hc)
            · exact absurd (List.mem_append_right _ hv) hq
        · rw [dif_neg hacc]
          constructor
          · intro hX
            rcases (hA X).mp hX with ⟨hv, hq, hn⟩
            refine ⟨List.mem_append_left _ hv, ?_, hn⟩
            intro hc
            rcases List.mem_append.mp hc with hc | hc
            · exact hq (List.mem_cons_of_mem M hc)
            · exact hextV _ hc hv
          · rintro ⟨hv, hq, hn⟩
            rcases List.mem_append.mp hv with hv | hv
            · by_cases hXM : X = M
              · exact absurd (hXM ▸ hn) hacc
              · refine (hA X).mpr ⟨hv, ?_, hn⟩
                intro hc
                rcases List.mem_cons.mp hc with hc | hc
                · exact hXM hc
                · exact hq (List.mem_append_left _ hc)
            · exact absurd (List.mem_append_right _ hv) hq
      have IH := ih hh1 hh2 hh3 hh4 hh5 hh6 hh7
      simp only [dite_eq_ite] at IH
      exact ⟨IH.1, fun X hX => IH.2.1 X (List.mem_append_left _ hX), IH.2.2.1,
        IH.2.2.2.1, IH.2.2.2.2.1, IH.2.2.2.2.2⟩

theorem mem_detTrace_of_mem_queue (n : NondeterministicFiniteAutomaton)
    (Q V : List (Finset String)) (T : List ((Finset String × Char) × Finset String)) :
    ∀ M ∈ Q, M ∈ detTrace n Q V T := by
  induction Q, V, T using detTrace.induct n with
  | case1 V T => simp
  | case2 M rest visited tf ih =>
      intro X hX
      rw [detTrace]
      rcases List.mem_cons.mp hX with rfl | hX
      · exact List.mem_cons_self _ _
      · refine List.mem_cons_of_mem _ (ih X ?_)
        rcases processSymbols_ext n M (enumOfC n.alphabet) ⟨rest, visited, tf⟩ with
          ⟨ext, he1, _, _, _⟩
        rw [he1]
        exact List.mem_append_left _ hX

theorem detTrace_nodup (n : NondeterministicFiniteAutomaton)
    (Q V : List (Finset String)) (T : List ((Finset String × Char) × Finset String))
    (hQnd : Q.Nodup) (hQV : ∀ M ∈ Q, M ∈ V) :
    (detTrace n Q V T).Nodup ∧ ∀ x ∈ detTrace n Q V T, x ∈ V → x ∈ Q := by
  revert hQnd hQV
  induction Q, V, T using detTrace.induct n with
  | case1 V T =>
      intro hQnd hQV
      rw [detTrace]
      exact ⟨List.nodup_nil, by simp⟩
  | case2 M rest visited tf ih =>
      intro hQnd hQV
      rcases processSymbols_ext n M (enumOfC n.alphabet) ⟨rest, visited, tf⟩ with
        ⟨ext, he1, he2, hend, hextp⟩
      dsimp only at he1 he2 hextp
      have hMvis : M ∈ visited := hQV M (List.mem_cons_self M rest)
      have hMrest : M ∉ rest := (List.nodup_cons.mp hQnd).1
      have hrestnd : rest.Nodup := (List.nodup_cons.mp hQnd).2
      have hextV : ∀ x ∈ ext, x ∉ visited := fun x hx => (hextp x hx).1
      rw [detTrace, he1, he2]
      rw [he1, he2] at ih
      have hIH := ih ?_ ?_
      · rcases hIH with ⟨hnd, hmem⟩
        constructor
        · refine List.nodup_cons.mpr ⟨?_, hnd⟩
          intro hc
          have := hmem M hc (List.mem_append_left _ hMvis)
          rcases List.mem_append.mp this with hc2 | hc2
          · exact hMrest hc2
          · exact hextV M hc2 hMvis
        · intro x hx hxV
          rcases List.mem_cons.mp hx with rfl | hx
          · exact List.mem_cons_self _ _
          · have := hmem x hx (List.mem_append_left _ hxV)
            rcases List.mem_append.mp this with hc2 | hc2
            · exact List.mem_cons_of_mem _ hc2
            · exact absurd hxV (hextV x hc2)
      · rw [List.nodup_append]
        exact ⟨hrestnd, hend, fun x hx hx2 => hextV x hx2 (hQV x (List.mem_cons_of_mem M hx))⟩
      · intro X hX
        rcases List.mem_append.mp hX with hX | hX
        · exact List.mem_append_left _ (hQV X (List.mem_cons_of_mem M hX))
        · exact List.mem_append_right _ hX

theorem detLoop_visited_iff (n : NondeterministicFiniteAutomaton)
    (Q V : List (Finset String)) (T : List ((Finset String × Char) × Finset String))
    (A : Finset (Finset String)) (hQV : ∀ M ∈ Q, M ∈ V) :
    ∀ x, x ∈ (detLoop n Q V T A).1.visited ↔ x ∈ V ∨ x ∈ detTrace n Q V T := by
  revert hQV
  induction Q, V, T, A using detLoop.induct n with
  | case1 V T A =>
      intro hQV x
      rw [detLoop, detTrace]
      simp
  | case2 M rest visited tf accepts ih =>
      intro hQV x
      rcases processSymbols_ext n M (enumOfC n.alphabet) ⟨rest, visited, tf⟩ with
        ⟨ext, he1, he2, hend, hextp⟩
      dsimp only at he1 he2 hextp
      rw [detLoop, detTrace, he1, he2]
      rw [he1, he2] at ih
      have hQV2 : ∀ X ∈ rest ++ ext, X ∈ visited ++ ext := by
        intro X hX
        rcases List.mem_append.mp hX with hX | hX
        · exact List.mem_append_left _ (hQV X (List.mem_cons_of_mem M hX))
        · exact List.mem_append_right _ hX
      have hIH := ih hQV2 x
      simp only [dite_eq_ite] at hIH
      rw [hIH]
      constructor
      · rintro (hx | hx)
        · rcases List.mem_append.mp hx with hx | hx
          · exact Or.inl hx
          · refine Or.inr (List.mem_cons_of_mem _ ?_)
            refine mem_detTrace_of_mem_queue n _ _ _ x ?_
            exact List.mem_append_right _ hx
        · exact Or.inr (List.mem_cons_of_mem _ hx)
      · rintro (hx | hx)
        · exact Or.inl (List.mem_append_left _ hx)
        · rcases List.mem_cons.mp hx with rfl | hx
          · exact Or.inl (List.mem_append_left _ (hQV x (List.mem_cons_self x rest)))
          · exact Or.inr hx

theorem epsilon_closure_set_subset (n : NondeterministicFiniteAutomaton) (S : Finset String) :
    n.epsilon_closure_set S ⊆ S ∪ n.allTargets := by
  intro t ht
  rcases (mem_epsilon_closure_set n S t).mp ht with ⟨s, hs, hr⟩
  rcases epsReach_target n s t hr with rfl | h
  · exact Finset.mem_union_left _ hs
  · exact Finset.mem_union_right _ h

theorem startMeta_mem_metaP (n : NondeterministicFiniteAutomaton) :
    startMeta n ∈ metaP n := by
  refine Finset.mem_powerset.mpr ?_
  refine (epsilon_closure_set_subset n {n.start_state}).trans ?_
  intro x hx
  rcases Finset.mem_union.mp hx with hx | hx
  · rw [Finset.mem_singleton] at hx
    exact hx ▸ Finset.mem_insert_self _ _
  · exact Finset.mem_insert_of_mem hx

/-- Decimal digit list of a natural number, most significant digit first; the
recursion-free counterpart of `Nat.toDigitsCore`. -/
def decDigits (x : Nat) : List Char :=
  if h : x < 10 then [Nat.digitChar x]
  else decDigits (x / 10) ++ [Nat.digitChar (x % 10)]
termination_by x
decreasing_by exact Nat.div_lt_self (by omega) (by omega)

theorem toDigitsCore_eq_decDigits (fuel : Nat) :
    ∀ x ds, x < fuel → Nat.toDigitsCore 10 fuel x ds = decDigits x ++ ds := by
  induction fuel with
  | zero => omega
  | succ f ih =>
      intro x ds hx
      simp only [Nat.toDigitsCore]
      by_cases h10 : x < 10
      · have hx0 : x / 10 = 0 := Nat.div_eq_of_lt h10
        rw [if_pos hx0, decDigits, dif_pos h10, Nat.mod_eq_of_lt h10]
        rfl
      · have hx0 : x / 10 ≠ 0 := by omega
        have hx' : decDigits x = decDigits (x / 10) ++ [(x % 10).digitChar] := by
          conv_lhs => rw [decDigits]
          rw [dif_neg h10]
        rw [if_neg hx0, ih (x / 10) _ (by omega), hx', List.append_assoc]
        rfl

/-- Decimal value of a digit list (accumulator style), inverse to `decDigits`. -/
def parseDigits (l : List Char) : Nat :=
  l.foldl (fun a c => a * 10 + (c.toNat - 48)) 0

theorem parseDigits_decDigits (x : Nat) : parseDigits (decDigits x) = x := by
  induction x using Nat.strong_induction_on with
  | _ x ih =>
      by_cases h10 : x < 10
      · rw [decDigits, dif_pos h10]
        have hd : ∀ d, d < 10 → (Nat.digitChar d).toNat - 48 = d := by decide
        simp [parseDigits, hd x h10]
      · rw [decDigits, dif_neg h10]
        unfold parseDigits
        rw [List.foldl_append]
        have hrec := ih (x / 10) (Nat.div_lt_self (by omega) (by omega))
        unfold parseDigits at hrec
        rw [hrec]
        have hd : ∀ d, d < 10 → (Nat.digitChar d).toNat - 48 = d := by decide
        simp only [List.foldl_cons, List.foldl_nil, hd (x % 10) (Nat.mod_lt x (by omega))]
        omega

theorem nat_repr_eq_decDigits (x : Nat) : Nat.repr x = (decDigits x).asString := by
  unfold Nat.repr Nat.toDigits
  rw [toDigitsCore_eq_decDigits (x + 1) x [] (by omega), List.append_nil]

theorem nat_toString_injective (m k : Nat) (h : toString m = toString k) : m = k := by
  have hm : toString m = (decDigits m).asString := nat_repr_eq_decDigits m
  have hk : toString k = (decDigits k).asString := nat_repr_eq_decDigits k
  rw [hm, hk] at h
  have hdata : decDigits m = decDigits k := by
    have := congrArg String.data h
    simpa [List.asString] using this
  calc m = parseDigits (decDigits m) := (parseDigits_decDigits m).symm
    _ = parseDigits (decDigits k) := by rw [hdata]
    _ = k := parseDigits_decDigits k

theorem posIn_get? (l : List (Finset String)) (S : Finset String) (hS : S ∈ l) :
    l.get? (posIn l S) = some S := by
  induction l with
  | nil => simp at hS
  | cons x xs ih =>
      rw [posIn]
      by_cases hx : x = S
      · rw [if_pos hx, hx]
        rfl
      · rw [if_neg hx]
        have hS2 : S ∈ xs := by
          rcases List.mem_cons.mp hS with h | h
          · exact absurd h.symm hx
          · exact h
        simpa using ih hS2

theorem posIn_inj (l : List (Finset String)) (S T : Finset String)
    (hS : S ∈ l) (hT : T ∈ l) (h : posIn l S = posIn l T) : S = T := by
  have h1 := posIn_get? l S hS
  have h2 := posIn_get? l T hT
  rw [h, h2] at h1
  exact (Option.some.injEq _ _).mp h1.symm

theorem metaName_inj (V : List (Finset String)) (S T : Finset String)
    (hS : S ∈ V) (hT : T ∈ V) (h : metaName V S = metaName V T) : S = T := by
  unfold metaName at h
  have hdata := congrArg String.data h
  simp only [String.data_append] at hdata
  have hts : toString (posIn V S) = toString (posIn V T) := by
    apply String.ext
    exact List.append_cancel_left hdata
  exact posIn_inj V S T hS hT (nat_toString_injective _ _ hts)

/-- Meta-state adjacency: `N` is the non-empty move-then-close successor of `M`
on some alphabet symbol. -/
def metaEdge (n : NondeterministicFiniteAutomaton) (M N : Finset String) : Prop :=
  ∃ c ∈ n.alphabet, N = n.move_nfa M c ∧ N ≠ ∅

/-- Reachability among meta-states of the subset construction. -/
def metaReach (n : NondeterministicFiniteAutomaton) (M N : Finset String) : Prop :=
  Relation.ReflTransGen (metaEdge n) M N

theorem detResult_spec (n : NondeterministicFiniteAutomaton) :
    (detResult n).1.visited.Nodup ∧
    startMeta n ∈ (detResult n).1.visited ∧
    (∀ M ∈ (detResult n).1.visited, metaReach n (startMeta n) M ∧ M ∈ metaP n) ∧
    (∀ e ∈ (detResult n).1.trans, e.1.1 ∈ (detResult n).1.visited ∧ e.1.2 ∈ n.alphabet ∧
      e.2 = n.move_nfa e.1.1 e.1.2 ∧ e.2 ≠ ∅ ∧ e.2 ∈ (detResult n).1.visited) ∧
    (∀ M ∈ (detResult n).1.visited, ∀ c ∈ n.alphabet, n.move_nfa M c ≠ ∅ →
      ∃ e ∈ (detResult n).1.trans, e.1 = (M, c) ∧ e.2 = n.move_nfa M c) ∧
    (∀ M, M ∈ (detResult n).2 ↔ M ∈ (detResult n).1.visited ∧
      (M ∩ n.accept_states).Nonempty) := by
  have h := detLoop_spec n (fun M => metaReach n (startMeta n) M ∧ M ∈ metaP n)
    (fun M hM c hc hne =>
      ⟨Relation.ReflTransGen.tail hM.1 ⟨c, hc, rfl, hne⟩, move_nfa_mem_metaP n M c⟩)
    [startMeta n] [startMeta n] [] ∅
    (List.nodup_singleton _) (List.nodup_singleton _)
    (fun M hM => hM)
    (fun M hM => by
      rcases List.mem_singleton.mp hM with rfl
      exact ⟨Relation.ReflTransGen.refl, startMeta_mem_metaP n⟩)
    (fun e he => absurd he (List.not_mem_nil e))
    (fun M hM hMQ => by
      rcases List.mem_singleton.mp hM with rfl
      exact absurd (List.mem_singleton.mpr rfl) hMQ)
    (fun M => by
      simp only [Finset.not_mem_empty, false_iff]
      rintro ⟨hv, hq, _⟩
      rcases List.mem_singleton.mp hv with rfl
      exact hq (List.mem_singleton.mpr rfl))
  exact ⟨h.1, h.2.1 (startMeta n) (List.mem_singleton.mpr rfl), h.2.2.1, h.2.2.2.1,
    h.2.2.2.2.1, h.2.2.2.2.2⟩

theorem hmGet_isSome_of_mem {α β : Type} [DecidableEq α] (m : List (α × β)) (k : α)
    (h : ∃ e ∈ m, e.1 = k) : ∃ v, hmGet m k = some v := by
  induction m with
  | nil => simp at h
  | cons e rest ih =>
      rw [hmGet]
      by_cases hk : e.1 = k
      · exact ⟨e.2, if_pos hk⟩
      · rw [if_neg hk]
        rcases h with ⟨f, hf, hfk⟩
        rcases List.mem_cons.mp hf with rfl | hf
        · exact absurd hfk hk
        · exact ih ⟨f, hf, hfk⟩

theorem detResult_lookup_some (n : NondeterministicFiniteAutomaton) (M : Finset String)
    (c : Char) (N : Finset String) (h : hmGet (detResult n).1.trans (M, c) = some N) :
    c ∈ n.alphabet ∧ N = n.move_nfa M c ∧ N ≠ ∅ ∧ N ∈ (detResult n).1.visited := by
  have hmem := hmGet_mem _ _ _ h
  have hspec := (detResult_spec n).2.2.2.1 ((M, c), N) hmem
  exact ⟨hspec.2.1, hspec.2.2.1, hspec.2.2.2.1, hspec.2.2.2.2⟩

theorem detResult_lookup_exists (n : NondeterministicFiniteAutomaton) (M : Finset String)
    (hM : M ∈ (detResult n).1.visited) (c : Char) (hc : c ∈ n.alphabet)
    (hne : n.move_nfa M c ≠ ∅) : ∃ v, hmGet (detResult n).1.trans (M, c) = some v := by
  rcases (detResult_spec n).2.2.2.2.1 M hM c hc hne with ⟨e, he, hek, _⟩
  exact hmGet_isSome_of_mem _ _ ⟨e, he, hek⟩

theorem hmGet_map_metaName (V : List (Finset String))
    (T : List ((Finset String × Char) × Finset String))
    (hkeys : ∀ e ∈ T, e.1.1 ∈ V) (M : Finset String) (hM : M ∈ V) (c : Char) :
    hmGet (T.map fun e => ((metaName V e.1.1, e.1.2), metaName V e.2)) (metaName V M, c)
      = (hmGet T (M, c)).map (metaName V) := by
  induction T with
  | nil => rfl
  | cons e rest ih =>
      simp only [List.map_cons, hmGet]
      by_cases hk : e.1 = (M, c)
      · have hk1 : e.1.1 = M := by rw [hk]
        have hk2 : e.1.2 = c := by rw [hk]
        rw [if_pos (by rw [hk1, hk2]), if_pos hk]
        rfl
      · have hnk : ¬ ((metaName V e.1.1, e.1.2) = (metaName V M, c)) := by
          intro hc2
          have h1 : metaName V e.1.1 = metaName V M := congrArg Prod.fst hc2
          have h2 : e.1.2 = c := congrArg Prod.snd hc2
          have h3 : e.1.1 = M :=
            metaName_inj V e.1.1 M (hkeys e (List.mem_cons_self e rest)) hM h1
          exact hk (Prod.ext h3 h2)
        rw [if_neg hnk, if_neg hk]
        exact ih (fun f hf => hkeys f (List.mem_cons_of_mem e hf))

theorem inter_nonempty_iff (M acc : Finset String) :
    (M ∩ acc).Nonempty ↔ ∃ s ∈ M, s ∈ acc := by
  constructor
  · rintro ⟨x, hx⟩
    exact ⟨x, Finset.mem_inter.mp hx⟩
  · rintro ⟨x, hx1, hx2⟩
    exact ⟨x, Finset.mem_inter.mpr ⟨hx1, hx2⟩⟩

theorem acceptsFrom_determinize_eq (n : NondeterministicFiniteAutomaton) (w : List Char)
    (hw : ∀ c ∈ w, c ∈ n.alphabet) :
    ∀ M ∈ (detResult n).1.visited,
      (determinize n).acceptsFrom (metaName (detResult n).1.visited M) w
        = decide (∃ s ∈ metaRun n M w, s ∈ n.accept_states) := by
  induction w with
  | nil =>
      intro M hM
      rw [DeterministicFiniteAutomaton.acceptsFrom]
      unfold DeterministicFiniteAutomaton.is_accepting
      rw [decide_eq_decide]
      have hacc : (determinize n).accept_states
          = (detResult n).2.image (metaName (detResult n).1.visited) := rfl
      rw [hacc]
      constructor
      · intro hX
        rcases Finset.mem_image.mp hX with ⟨X, hXA, hXname⟩
        have hXV : X ∈ (detResult n).1.visited := (((detResult_spec n).2.2.2.2.2 X).mp hXA).1
        have hXM : X = M := metaName_inj _ X M hXV hM hXname
        have hne := (((detResult_spec n).2.2.2.2.2 X).mp hXA).2
        rw [hXM] at hne
        exact (inter_nonempty_iff M n.accept_states).mp hne
      · intro hX
        have hMA : M ∈ (detResult n).2 := ((detResult_spec n).2.2.2.2.2 M).mpr
          ⟨hM, (inter_nonempty_iff M n.accept_states).mpr hX⟩
        exact Finset.mem_image.mpr ⟨M, hMA, rfl⟩
  | cons c rest ih =>
      intro M hM
      have hwrest : ∀ c2 ∈ rest, c2 ∈ n.alphabet :=
        fun c2 hc2 => hw c2 (List.mem_cons_of_mem c hc2)
      have htf : (determinize n).transition_function
          = (detResult n).1.trans.map
            (fun e => ((metaName (detResult n).1.visited e.1.1, e.1.2),
              metaName (detResult n).1.visited e.2)) := rfl
      have hkeys : ∀ e ∈ (detResult n).1.trans, e.1.1 ∈ (detResult n).1.visited :=
        fun e he => ((detResult_spec n).2.2.2.1 e he).1
      have hlook : (determinize n).transition_dfa (metaName (detResult n).1.visited M) c
          = (hmGet (detResult n).1.trans (M, c)).map (metaName (detResult n).1.visited) := by
        unfold DeterministicFiniteAutomaton.transition_dfa
        rw [htf]
        exact hmGet_map_metaName _ _ hkeys M hM c
      rcases hg : hmGet (detResult n).1.trans (M, c) with _ | N
      · rw [hg] at hlook
        have hmove : n.move_nfa M c = ∅ := by
          by_contra hne
          rcases detResult_lookup_exists n M hM c (hw c (List.mem_cons_self c rest)) hne with
            ⟨v, hv⟩
          rw [hv] at hg
          exact Option.noConfusion hg
        rw [DeterministicFiniteAutomaton.acceptsFrom, hlook]
        have hrun : metaRun n M (c :: rest) = ∅ := by
          unfold metaRun
          rw [List.foldl_cons, hmove]
          exact metaRun_empty n rest
        rw [hrun]
        show false = decide (∃ s ∈ (∅ : Finset String), s ∈ n.accept_states)
        symm
        apply decide_eq_false
        rintro ⟨s, hs, _⟩
        exact absurd hs (Finset.not_mem_empty s)
      · rw [hg] at hlook
        rcases detResult_lookup_some n M c N hg with ⟨_, hNmove, _, hNV⟩
        rw [DeterministicFiniteAutomaton.acceptsFrom, hlook]
        show (determinize n).acceptsFrom (metaName (detResult n).1.visited N) rest
          = decide (∃ s ∈ metaRun n M (c :: rest), s ∈ n.accept_states)
        rw [ih hwrest N hNV]
        have hrun : metaRun n M (c :: rest) = metaRun n N rest := by
          unfold metaRun
          rw [List.foldl_cons, ← hNmove]
        rw [hrun]

theorem determinize_accepts_eq (n : NondeterministicFiniteAutomaton) (w : List Char)
    (hw : ∀ c ∈ w, c ∈ n.alphabet) :
    (determinize n).accepts w = n.accepts w := by
  rw [DeterministicFiniteAutomaton.accepts]
  have hstart : (determinize n).start_state
      = metaName (detResult n).1.visited (startMeta n) := rfl
  rw [hstart, acceptsFrom_determinize_eq n w hw (startMeta n) (detResult_spec n).2.1,
    nfa_accepts_eq_metaRun n w]
  rfl

/-- An edge of a DFA's transition function: some symbol carries `a` to `b`. -/
def dfaEdge (d : DeterministicFiniteAutomaton) (a b : String) : Prop :=
  ∃ c, d.transition_dfa a c = some b

theorem metaReach_lift (n : NondeterministicFiniteAutomaton) (M : Finset String)
    (h : metaReach n (startMeta n) M) :
    M ∈ (detResult n).1.visited ∧
      Relation.ReflTransGen (dfaEdge (determinize n))
        (metaName (detResult n).1.visited (startMeta n))
        (metaName (detResult n).1.visited M) := by
  induction h with
  | refl => exact ⟨(detResult_spec n).2.1, Relation.ReflTransGen.refl⟩
  | @tail B C hab hbc ih =>
      rcases ih with ⟨hbV, hreach⟩
      rcases hbc with ⟨c, hc, rfl, hne⟩
      rcases detResult_lookup_exists n B hbV c hc hne with ⟨v, hv⟩
      rcases detResult_lookup_some n B c v hv with ⟨_, hvmove, _, hvV⟩
      have hkeys : ∀ e ∈ (detResult n).1.trans, e.1.1 ∈ (detResult n).1.visited :=
        fun e he => ((detResult_spec n).2.2.2.1 e he).1
      have htd : (determinize n).transition_dfa
          (metaName (detResult n).1.visited B) c
          = some (metaName (detResult n).1.visited v) := by
        unfold DeterministicFiniteAutomaton.transition_dfa
        have htf : (determinize n).transition_function
            = (detResult n).1.trans.map
              (fun e => ((metaName (detResult n).1.visited e.1.1, e.1.2),
                metaName (detResult n).1.visited e.2)) := rfl
        rw [htf, hmGet_map_metaName _ _ hkeys B hbV c, hv]
        rfl
      rw [← hvmove]
      exact ⟨hvmove ▸ hvV, hreach.tail ⟨c, hvmove ▸ htd⟩⟩

theorem determinize_reachable (n : NondeterministicFiniteAutomaton) :
    ∀ s ∈ (determinize n).states,
      Relation.ReflTransGen (dfaEdge (determinize n)) (determinize n).start_state s := by
  intro s hs
  have hstates : (determinize n).states
      = ((detResult n).1.visited.map (metaName (detResult n).1.visited)).toFinset := rfl
  rw [hstates] at hs
  rcases List.mem_map.mp (List.mem_toFinset.mp hs) with ⟨M, hMV, rfl⟩
  have hreach := ((detResult_spec n).2.2.1 M hMV).1
  exact (metaReach_lift n M hreach).2

theorem determinize_start_mem_states (n : NondeterministicFiniteAutomaton) :
    (determinize n).start_state ∈ (determinize n).states := by
  have hstates : (determinize n).states
      = ((detResult n).1.visited.map (metaName (detResult n).1.visited)).toFinset := rfl
  rw [hstates]
  exact List.mem_toFinset.mpr (List.mem_map.mpr ⟨startMeta n, (detResult_spec n).2.1, rfl⟩)

/-- Well-formedness of an NFA value, as assumed by the data model: the start
state and every transition target belong to the declared state set. -/
def NondeterministicFiniteAutomaton.WellFormed (n : NondeterministicFiniteAutomaton) : Prop :=
  n.start_state ∈ n.states ∧ ∀ e ∈ n.transition_function, ∀ t ∈ e.2, t ∈ n.states

theorem mem_allTargets (n : NondeterministicFiniteAutomaton) (x : String) :
    x ∈ n.allTargets ↔ ∃ e ∈ n.transition_function, x ∈ e.2 := by
  unfold NondeterministicFiniteAutomaton.allTargets
  generalize n.transition_function = m
  induction m with
  | nil => simp
  | cons e rest ih =>
      simp only [List.foldr_cons, Finset.mem_union, List.mem_toFinset, ih]
      constructor
      · rintro (hx | ⟨f, hf, hxf⟩)
        · exact ⟨e, List.mem_cons_self e rest, hx⟩
        · exact ⟨f, List.mem_cons_of_mem e hf, hxf⟩
      · rintro ⟨f, hf, hxf⟩
        rcases List.mem_cons.mp hf with rfl | hf
        · exact Or.inl hxf
        · exact Or.inr ⟨f, hf, hxf⟩

theorem metaP_card_bound (n : NondeterministicFiniteAutomaton)
    (hwf : n.WellFormed) : (metaP n).card ≤ 2 ^ n.states.card := by
  unfold metaP
  rw [Finset.card_powerset]
  have hsub : insert n.start_state n.allTargets ⊆ n.states := by
    intro x hx
    rcases Finset.mem_insert.mp hx with rfl | hx
    · exact hwf.1
    · rcases (mem_allTargets n x).mp hx with ⟨e, he, hxe⟩
      exact hwf.2 e he x hxe
  exact Nat.pow_le_pow_right (by omega) (Finset.card_le_card hsub)

theorem detResult_visited_card (n : NondeterministicFiniteAutomaton)
    (hwf : n.WellFormed) : (detResult n).1.visited.length ≤ 2 ^ n.states.card := by
  have hnd := (detResult_spec n).1
  have hsub : (detResult n).1.visited.toFinset ⊆ metaP n := by
    intro M hM
    exact ((detResult_spec n).2.2.1 M (List.mem_toFinset.mp hM)).2
  calc (detResult n).1.visited.length = (detResult n).1.visited.toFinset.card :=
        (List.toFinset_card_of_nodup hnd).symm
    _ ≤ (metaP n).card := Finset.card_le_card hsub
    _ ≤ 2 ^ n.states.card := metaP_card_bound n hwf

/-- The sequence of meta-states dequeued over the whole determinization run. -/
def detTraceResult (n : NondeterministicFiniteAutomaton) : List (Finset String) :=
  detTrace n [startMeta n] [startMeta n] []

theorem detTraceResult_nodup (n : NondeterministicFiniteAutomaton) :
    (detTraceResult n).Nodup :=
  (detTrace_nodup n [startMeta n] [startMeta n] []
    (List.nodup_singleton _) (fun M hM => hM)).1

theorem detTraceResult_iff_visited (n : NondeterministicFiniteAutomaton) :
    ∀ M, M ∈ detTraceResult n ↔ M ∈ (detResult n).1.visited := by
  intro M
  have hvis := detLoop_visited_iff n [startMeta n] [startMeta n] [] ∅ (fun M hM => hM) M
  constructor
  · intro hM
    exact hvis.mpr (Or.inr hM)
  · intro hM
    rcases hvis.mp hM with hM2 | hM2
    · rcases List.mem_singleton.mp hM2 with rfl
      exact mem_detTrace_of_mem_queue n _ _ _ (startMeta n) (List.mem_singleton.mpr rfl)
    · exact hM2

/-- `HashableHashSet` from `src/automata.rs`: a `HashSet<String>` wrapped so it
can be used as a hash-map key.  The wrapped set is represented here by the list
of its elements in the set's iteration order (which for Rust's `HashSet` is
unspecified and differs between observably equal sets). -/
structure HashableHashSet where
  iter : List String

/-- The derived `PartialEq`/`Eq` of `HashableHashSet` (inherited from
`HashSet<String>`): order-independent equality of the underlying sets. -/
def HashableHashSet.setEq (a b : HashableHashSet) : Prop :=
  a.iter.toFinset = b.iter.toFinset

instance (a b : HashableHashSet) : Decidable (a.setEq b) := by
  unfold HashableHashSet.setEq
  infer_instance

/-- One write into a sequential hasher state, modelling a byte fed to the
`Hasher`: the new state depends on the old state and the value mixed
non-commutatively.  The concrete mixing function stands in for SipHash; the
property that matters is that writes are absorbed sequentially, so the final
value depends on the order of the writes. -/
def hasherWrite (h v : Nat) : Nat := (h * 1000003 + (v + 1)) % 2 ^ 64

/-- `String as Hash`: write every byte of the string, then a terminator. -/
def hashStringInto (h : Nat) (s : String) : Nat :=
  hasherWrite (s.data.foldl (fun a c => hasherWrite a c.toNat) h) 255

/-- `impl Hash for HashableHashSet`: `for item in &self.0 { item.hash(state) }`
— each element is fed into the single hasher state in iteration order. -/
def HashableHashSet.hashVal (x : HashableHashSet) : Nat :=
  x.iter.foldl hashStringInto 0

/-- The membership side of `HashSet<HashableHashSet>` insertion (the `visited`
set of `determinize`): a probe is looked up in its own hash bucket, so a
stored element counts as a hit only if it has the probe's hash value and equal
contents.  With an order-independent hash the equality test alone would decide
membership; with the iteration-order-dependent `HashableHashSet` hash an equal
set stored under a different iteration order is missed and the probe is
treated as new. -/
def hsContains (v : List HashableHashSet) (x : HashableHashSet) : Bool :=
  v.any fun y => decide (y.hashVal = x.hashVal) && decide (y.setEq x)

/-- `Sample` from `src/passive.rs`. -/
structure Sample where
  positive : Finset String
  negative : Finset String

/-- The mutable state of `build_pta`: states, alphabet, transition map,
accepting states and the fresh-name counter. -/
structure PtaAcc where
  states : Finset String
  alphabet : Finset Char
  transition_function : List ((String × Char) × String)
  accept_states : Finset String
  next_state_index : Nat

/-- The `for symbol in word.chars()` loop body of `build_pta`: record the
symbol in the alphabet, then follow the existing transition or create a fresh
state and transition. -/
def ptaStep (p : PtaAcc × String) (symbol : Char) : PtaAcc × String :=
  let acc := { p.1 with alphabet := insert symbol p.1.alphabet }
  match hmGet acc.transition_function (p.2, symbol) with
  | some next => (acc, next)
  | none =>
      ({ acc with
          states := insert ("q" ++ toString acc.next_state_index) acc.states
          transition_function :=
            ((p.2, symbol), "q" ++ toString acc.next_state_index)
              :: acc.transition_function
          next_state_index := acc.next_state_index + 1 },
        "q" ++ toString acc.next_state_index)

/-- The `for word in s.positive` loop body of `build_pta`: walk/extend the trie
from the start state and mark the final state accepting. -/
def ptaWord (acc : PtaAcc) (word : String) : PtaAcc :=
  { (word.data.foldl ptaStep (acc, "q0")).1 with
      accept_states := insert (word.data.foldl ptaStep (acc, "q0")).2
        ((word.data.foldl ptaStep (acc, "q0")).1.accept_states) }

/-- `build_pta` from `src/passive.rs`: prefix-tree acceptor of the positive
sample strings.  The `negative` field of the sample is never read. -/
def build_pta (s : Sample) : DeterministicFiniteAutomaton :=
  { states := ((enumOf s.positive).foldl ptaWord ⟨{"q0"}, ∅, [], ∅, 1⟩).states
    alphabet := ((enumOf s.positive).foldl ptaWord ⟨{"q0"}, ∅, [], ∅, 1⟩).alphabet
    transition_function :=
      ((enumOf s.positive).foldl ptaWord ⟨{"q0"}, ∅, [], ∅, 1⟩).transition_function
    start_state := "q0"
    accept_states := ((enumOf s.positive).foldl ptaWord ⟨{"q0"}, ∅, [], ∅, 1⟩).accept_states }

instance (n : NondeterministicFiniteAutomaton) : Decidable n.WellFormed := by
  unfold NondeterministicFiniteAutomaton.WellFormed
  infer_instance

/-- The NFA of spec scenario 2: states q0,q1,q2, start q0, accept q2,
transitions q0 -a-> {q0,q1}, q1 -b-> {q2}, q2 -ε-> {q0}. -/
def nfa2 : NondeterministicFiniteAutomaton :=
  { states := {"q0", "q1", "q2"}
    alphabet := {'a', 'b'}
    transition_function :=
      [(("q0", some 'a'), ["q0", "q1"]), (("q1", some 'b'), ["q2"]), (("q2", none), ["q0"])]
    start_state := "q0"
    accept_states := {"q2"} }

/-- The DFA of spec scenario 1: states q0,q1, transitions q0 -a-> q1,
q1 -b-> q0, start q0, accept q1. -/
def dfa1 : DeterministicFiniteAutomaton :=
  { states := {"q0", "q1"}
    alphabet := {'a', 'b'}
    transition_function := [(("q0", 'a'), "q1"), (("q1", 'b'), "q0")]
    start_state := "q0"
    accept_states := {"q1"} }

/-- C1: for every NFA `N` and every finite string `w` over `N`'s alphabet
(including the empty string), the DFA returned by `determinize N` accepts `w`
if and only if `N` accepts `w`. -/
theorem claim_C1_determinize_language_equivalence (n : NondeterministicFiniteAutomaton)
    (w : List Char) (hw : ∀ c ∈ w, c ∈ n.alphabet) :
    (determinize n).accepts w = n.accepts w :=
  determinize_accepts_eq n w hw

/-- Witness for C1 at the spec's scenario-2 NFA and the string "ab". -/
theorem claim_C1_witness :
    (∀ c ∈ ['a', 'b'], c ∈ nfa2.alphabet) ∧
      (determinize nfa2).accepts ['a', 'b'] = nfa2.accepts ['a', 'b'] :=
  ⟨by decide, claim_C1_determinize_language_equivalence nfa2 ['a', 'b'] (by decide)⟩

/-- C2 (refuted, code bug): the `Hash` implementation of `HashableHashSet`
feeds the set's elements into a single sequential hasher in iteration order,
so two sets that are equal as sets (the derived `PartialEq`) but are iterated
in different orders hash to different values — the identifiers are not
order-independently hashed as the spec requires.  This theorem evaluates the
hash at the failing input: the sets {"a","b"} iterated as ["a","b"] and as
["b","a"] are equal but hash differently. -/
theorem claim_C2_hash_order_dependent :
    HashableHashSet.setEq ⟨["a", "b"]⟩ ⟨["b", "a"]⟩ ∧
      HashableHashSet.hashVal ⟨["a", "b"]⟩ ≠ HashableHashSet.hashVal ⟨["b", "a"]⟩ := by
  constructor
  · decide
  · decide

/-- Under the idealized set-equality deduplication performed by the model's
`processSymbols` — the deduplication the reference design requires of
`HashableHashSet`, but which its order-dependent hash fails to implement —
the determinization loop is total (terminating by the strictly decreasing
measure `|metaP n \ visited| + |queue|`), its dequeue trace contains every
discovered meta-state exactly once, and for a well-formed NFA at most
`2 ^ |states|` distinct meta-states are discovered.  This is the intended
behavior the program's visited set does not deliver. -/
theorem detLoop_idealized_exactly_once (n : NondeterministicFiniteAutomaton)
    (hwf : n.WellFormed) :
    (detTraceResult n).Nodup ∧
      (∀ M, M ∈ detTraceResult n ↔ M ∈ (detResult n).1.visited) ∧
      (detResult n).1.visited.length ≤ 2 ^ n.states.card :=
  ⟨detTraceResult_nodup n, detTraceResult_iff_visited n, detResult_visited_card n hwf⟩

/-- `detLoop_idealized_exactly_once` instantiated at the scenario-2 NFA. -/
theorem detLoop_idealized_exactly_once_example :
    nfa2.WellFormed ∧
      ((detTraceResult nfa2).Nodup ∧
        (∀ M, M ∈ detTraceResult nfa2 ↔ M ∈ (detResult nfa2).1.visited) ∧
        (detResult nfa2).1.visited.length ≤ 2 ^ nfa2.states.card) :=
  ⟨by decide, detLoop_idealized_exactly_once nfa2 (by decide)⟩

/-- C3 (refuted for the program, code bug): the exactly-once discipline of the
worklist relies on `visited: HashSet<HashableHashSet>` deduplicating
semantically equal meta-state sets, but the `HashSet` lookup finds a key only
under its hash, and `HashableHashSet`'s hash depends on iteration order.
Concretely, in the determinization of the scenario-2 NFA the meta-state
{q0,q1} re-derives itself on 'a', so the loop re-encounters it as a freshly
built set; the two iteration orders of that set are equal as sets yet hash
differently, and the visited-set lookup misses the stored copy when the fresh
copy iterates in the other order — the equal meta-state is then re-inserted,
re-enqueued and dequeued-and-expanded again, so a distinct meta-state is not
processed exactly once and `visited` can hold more than `2 ^ |states|`
entries. -/
theorem claim_C3_visited_dedup_misses_equal_metastate :
    nfa2.move_nfa {"q0", "q1"} 'a' = {"q0", "q1"} ∧
    HashableHashSet.setEq ⟨["q0", "q1"]⟩ ⟨["q1", "q0"]⟩ ∧
    HashableHashSet.hashVal ⟨["q0", "q1"]⟩ ≠ HashableHashSet.hashVal ⟨["q1", "q0"]⟩ ∧
    hsContains [⟨["q0", "q1"]⟩] ⟨["q1", "q0"]⟩ = false := by
  refine ⟨?_, by decide, by decide, by decide⟩
  have ht0a : nfa2.transition_nfa "q0" (some 'a') = ["q0", "q1"] := by decide
  have ht1a : nfa2.transition_nfa "q1" (some 'a') = [] := by decide
  have ht0e : nfa2.transition_nfa "q0" none = [] := by decide
  have ht1e : nfa2.transition_nfa "q1" none = [] := by decide
  have hfix : ∀ r x, nfa2.transition_nfa r none = [] → epsReach nfa2 r x → x = r := by
    intro r x hr h
    rcases Relation.ReflTransGen.cases_head h with h | ⟨b, hb, _⟩
    · exact h.symm
    · unfold epsStep at hb
      rw [hr] at hb
      exact absurd hb (List.not_mem_nil b)
  ext x
  rw [mem_move_nfa]
  constructor
  · rintro ⟨s, hs, r, hr, hreach⟩
    have hrmem : r = "q0" ∨ r = "q1" := by
      rcases Finset.mem_insert.mp hs with rfl | hs
      · rw [ht0a] at hr
        rcases List.mem_cons.mp hr with rfl | hr
        · exact Or.inl rfl
        · rcases List.mem_singleton.mp hr with rfl
          exact Or.inr rfl
      · rcases Finset.mem_singleton.mp hs with rfl
        rw [ht1a] at hr
        exact absurd hr (List.not_mem_nil r)
    rcases hrmem with rfl | rfl
    · rw [hfix "q0" x ht0e hreach]
      decide
    · rw [hfix "q1" x ht1e hreach]
      decide
  · intro hx
    rcases Finset.mem_insert.mp hx with rfl | hx
    · exact ⟨"q0", by decide, "q0", by decide, Relation.ReflTransGen.refl⟩
    · rcases Finset.mem_singleton.mp hx with rfl
      exact ⟨"q0", by decide, "q1", by decide, Relation.ReflTransGen.refl⟩

/-- C4: the DFA acceptance traversal returns `false` immediately when the
transition for the current (state, symbol) pair is undefined (it is a total
Bool-valued function, so no error is ever raised); and when every transition
key uses a declared alphabet symbol, a symbol outside the alphabet behaves
exactly like an undefined transition: immediate rejection. -/
theorem claim_C4_undefined_transition_rejects (d : DeterministicFiniteAutomaton)
    (current : String) (c : Char) (rest : List Char) :
    (d.transition_dfa current c = none → d.acceptsFrom current (c :: rest) = false) ∧
    ((∀ e ∈ d.transition_function, e.1.2 ∈ d.alphabet) → c ∉ d.alphabet →
      d.acceptsFrom current (c :: rest) = false) := by
  constructor
  · intro h
    rw [DeterministicFiniteAutomaton.acceptsFrom, h]
  · intro hwf hc
    have h : d.transition_dfa current c = none := by
      rcases hg : d.transition_dfa current c with _ | v
      · rfl
      · have hmem := hmGet_mem _ _ _ hg
        exact absurd (hwf ((current, c), v) hmem) hc
    rw [DeterministicFiniteAutomaton.acceptsFrom, h]

/-- Witness for C4 at the spec's scenario-1 DFA: 'a' is undefined from q1, and
'z' lies outside the alphabet. -/
theorem claim_C4_witness :
    dfa1.transition_dfa "q1" 'a' = none ∧
      dfa1.acceptsFrom "q1" ['a'] = false ∧
      (∀ e ∈ dfa1.transition_function, e.1.2 ∈ dfa1.alphabet) ∧
      'z' ∉ dfa1.alphabet ∧
      dfa1.acceptsFrom "q0" ['z'] = false :=
  ⟨by decide, (claim_C4_undefined_transition_rejects dfa1 "q1" 'a' []).1 (by decide),
    by decide, by decide,
    (claim_C4_undefined_transition_rejects dfa1 "q0" 'z' []).2 (by decide) (by decide)⟩

/-- C5: every state of the DFA produced by `determinize` is reachable from the
DFA's start state by following its transition function. -/
theorem claim_C5_determinize_reachable (n : NondeterministicFiniteAutomaton) :
    ∀ s ∈ (determinize n).states,
      Relation.ReflTransGen (dfaEdge (determinize n)) (determinize n).start_state s :=
  determinize_reachable n

/-- Witness for C5: the start state of the determinized scenario-2 NFA is a
state of the resulting DFA and is reachable from itself. -/
theorem claim_C5_witness :
    (determinize nfa2).start_state ∈ (determinize nfa2).states ∧
      Relation.ReflTransGen (dfaEdge (determinize nfa2)) (determinize nfa2).start_state
        (determinize nfa2).start_state :=
  ⟨determinize_start_mem_states nfa2,
    claim_C5_determinize_reachable nfa2 (determinize nfa2).start_state
      (determinize_start_mem_states nfa2)⟩

/-- C6: every state belongs to its own epsilon closure, and the closure is
exactly the set of states reachable by zero or more ε-transitions. -/
theorem claim_C6_epsilon_closure_reachability (n : NondeterministicFiniteAutomaton)
    (s : String) :
    s ∈ n.epsilon_closure s ∧ ∀ t, t ∈ n.epsilon_closure s ↔ epsReach n s t :=
  ⟨self_mem_epsilon_closure n s, fun t => mem_epsilon_closure n s t⟩

/-- C7: the set-level epsilon closure is idempotent: closing an already-closed
set yields the same set. -/
theorem claim_C7_epsilon_closure_set_idempotent (n : NondeterministicFiniteAutomaton)
    (S : Finset String) :
    n.epsilon_closure_set (n.epsilon_closure_set S) = n.epsilon_closure_set S :=
  epsilon_closure_set_idem n S

/-- C8: `epsilon_closure` terminates on every NFA, cyclic ε-transitions
included — its Lean model is a total function, proved terminating by the
measure `|allTargets \ closure| + |stack|`, which the add-once membership
check makes strictly decrease — and the add-once check pushes every state onto
the worklist at most once: the full push trace has no duplicates. -/
theorem claim_C8_epsilon_closure_terminates (n : NondeterministicFiniteAutomaton)
    (s : String) :
    (n.epsilon_closure_pushes s).2.Nodup ∧
      (n.epsilon_closure_pushes s).1 = n.epsilon_closure s :=
  epsilon_closure_pushes_spec n s

/-- C9: the stack-based single-state closure and the queue-based set-level
closure agree: `epsilon_closure s = epsilon_closure_set {s}`, and the
set-level closure of any set is the union of the single-state closures. -/
theorem claim_C9_closure_implementations_agree (n : NondeterministicFiniteAutomaton)
    (s : String) :
    n.epsilon_closure s = n.epsilon_closure_set {s} ∧
      ∀ S : Finset String, n.epsilon_closure_set S = S.biUnion fun x => n.epsilon_closure x :=
  ⟨(epsilon_closure_set_singleton n s).symm, fun S => epsilon_closure_set_biUnion n S⟩

/-- C10: `build_pta` never reads the negative sample set, so two samples with
the same positive set produce identical DFAs (states, alphabet, transition
function, start state and accept states all equal). -/
theorem claim_C10_pta_ignores_negative (P N1 N2 : Finset String) :
    build_pta ⟨P, N1⟩ = build_pta ⟨P, N2⟩ := rfl
